import Mathlib

set_option linter.unusedVariables false

/-!
Verification of the spatial/structural model engine of the block-diagram
editor: the entity store (blocks, ports, connections), hierarchy queries,
port positioning, connection routing, layout, and snapshot import
(src/models/model_manager.py, src/models/entities.py, src/utils/file_io.py).

Coordinates are modelled as exact rationals (ℚ); the Python source uses
floats, but every claim under study concerns exact arithmetic on small
values.  Python dicts are modelled as insertion-ordered association lists
keyed by entity id; raising an exception is modelled by returning `none`
(or an explicit failure flag).  Recursive walks over the block hierarchy
receive explicit fuel that models the Python call stack: fuel exhaustion
corresponds to a `RecursionError`.
-/

namespace MBSE

/-- Kind tag of a block (entities.py, `BlockType`). -/
inductive BlockType where
  | logical
  | functional
deriving DecidableEq, Repr

/-- Port entity (entities.py, `Port`): side is one of "left", "right",
"top", "bottom"; offset is the relative position along the side. -/
structure Port where
  id : String
  name : String
  side : String
  offset : ℚ := 1/2
deriving DecidableEq, Repr

/-- Block entity (entities.py, `Block`), including the layout parameters. -/
structure Block where
  id : String
  btype : BlockType
  name : String
  x : ℚ
  y : ℚ
  width : ℚ := 200
  height : ℚ := 100
  parent_id : Option String := none
  children : List String := []
  ports : List Port := []
  collapsed : Bool := false
  show_content : Bool := true
  header_height : ℚ := 40
  port_section_width : ℚ := 25
  padding : ℚ := 10
  child_spacing : ℚ := 8
deriving DecidableEq, Repr

/-- Connection entity (entities.py, `Connection`). -/
structure Connection where
  id : String
  from_block : String
  to_block : String
  from_port : Option String := none
  to_port : Option String := none
deriving DecidableEq, Repr

/-- The store (model_manager.py, `ModelManager.__init__`): `blocks` models
the Python dict `id → Block` as an insertion-ordered list whose keys are
the blocks' own ids. -/
structure ModelManager where
  blocks : List Block := []
  connections : List Connection := []
  block_counter : Nat := 0
  connection_counter : Nat := 0
  port_counter : Nat := 0
deriving DecidableEq, Repr

/-- Dict lookup `self.blocks[id]` / membership `id in self.blocks`. -/
def findBlock (m : ModelManager) (id : String) : Option Block :=
  m.blocks.find? (fun b => b.id = id)

/-- `id in self.blocks`. -/
def presentBlock (m : ModelManager) (id : String) : Bool :=
  (findBlock m id).isSome

/-- In-place mutation of the block object stored under `id` (Python
mutates the object held in the dict; with unique ids this is a pointwise
update of the association list). -/
def updateBlock (l : List Block) (id : String) (f : Block → Block) : List Block :=
  l.map (fun b => if b.id = id then f b else b)

/-- Dict insertion `d[key] = value` used when rebuilding the dict in
`from_dict`: an existing key keeps its position but gets the new value,
a new key is appended. -/
def dictInsert (l : List Block) (b : Block) : List Block :=
  if l.any (fun x => x.id = b.id) then l.map (fun x => if x.id = b.id then b else x)
  else l ++ [b]

/-- Rebuild of the blocks dict from a list of records
(`{b['id']: Block.from_dict(b) for b in data['blocks']}`): later records
with a duplicate id overwrite earlier ones. -/
def dictOfBlocks (bs : List Block) : List Block :=
  bs.foldl dictInsert []

/-- Decimal digit value of a character, as accepted by Python `int`. -/
def charDigit? (c : Char) : Option Nat :=
  if '0' ≤ c ∧ c ≤ '9' then some (c.toNat - '0'.toNat) else none

/-- Python `int(s)` on a plain unsigned digit string: `none` models the
`ValueError` raised on an empty or non-numeric string. -/
def digitsToNat? : List Char → Option Nat
  | [] => none
  | cs => go cs 0
where go : List Char → Nat → Option Nat
  | [], acc => some acc
  | c :: rest, acc =>
    match charDigit? c with
    | none => none
    | some d => go rest (acc * 10 + d)

/-- Python `s.split(sep)` for a single-character separator. -/
def splitOnChar (sep : Char) : List Char → List (List Char)
  | [] => [[]]
  | c :: rest =>
    let r := splitOnChar sep rest
    if c = sep then [] :: r
    else
      match r with
      | [] => [[c]]
      | g :: gs => (c :: g) :: gs

/-- `int(id.split('_')[1])` (from_dict counter reseeding): `none` models
the `IndexError` when there is no second component and the `ValueError`
when it is not numeric. -/
def idNumSuffix (id : String) : Option Nat :=
  match splitOnChar '_' id.data with
  | _ :: s :: _ => digitsToNat? s
  | _ => none

/-- `max([int(x.id.split('_')[1]) for x in xs], default=0)`: the whole
comprehension raises (returns `none`) if any id fails to parse; an empty
list yields the default 0. -/
def suffixMax? : List String → Option Nat
  | [] => some 0
  | id :: rest =>
    match idNumSuffix id, suffixMax? rest with
    | some n, some r => some (max n r)
    | _, _ => none

/-- `ModelManager.get_port_position`: absolute coordinates of a port from
its owning block's geometry.  The `index` argument exists in the source
signature but is never read. -/
def get_port_position (block : Block) (port : Port) (index : Nat) : ℚ × ℚ :=
  if port.side = "left" then
    (block.x, block.y + block.header_height + (block.height - block.header_height) * port.offset)
  else if port.side = "right" then
    (block.x + block.width,
     block.y + block.header_height + (block.height - block.header_height) * port.offset)
  else if port.side = "top" then
    (block.x + block.width * port.offset, block.y + block.header_height)
  else
    (block.x + block.width * port.offset, block.y + block.height)

/-- `ModelManager.create_port`: `none` models the `ValueError` raised when
`block_id` is not in the store; otherwise the new port (offset 0.5) is
appended to the block's port list and the port counter advances. -/
def create_port (m : ModelManager) (block_id name side : String) :
    Option (ModelManager × String) :=
  if presentBlock m block_id then
    let port_id := "port_" ++ toString m.port_counter
    let port : Port := { id := port_id, name := name, side := side, offset := 1/2 }
    some ({ m with
            port_counter := m.port_counter + 1,
            blocks := updateBlock m.blocks block_id
              (fun b => { b with ports := b.ports ++ [port] }) }, port_id)
  else none

/-- `ModelManager.get_port_by_id`: `not port_id` is the empty-string check
(the Python argument is an optional string). -/
def get_port_by_id (m : ModelManager) (block_id port_id : String) : Option Port :=
  if port_id = "" then none
  else
    match findBlock m block_id with
    | none => none
    | some b => b.ports.find? (fun p => p.id = port_id)

/-- `Block.get_content_area`: interior compartment rectangle
(x, y, width, height). -/
def Block.get_content_area (b : Block) : ℚ × ℚ × ℚ × ℚ :=
  (b.x + b.port_section_width, b.y + b.header_height,
   b.width - 2 * b.port_section_width, b.height - b.header_height - b.port_section_width)

/-- `ModelManager.create_block`: fresh sequential id, fixed 220×150 size,
link into the parent's children list when the parent exists.  The name
uses the counter value after the increment, exactly as the source does. -/
def create_block (m : ModelManager) (block_type : BlockType) (x y : ℚ)
    (parent_id : Option String := none) : ModelManager × String :=
  let block_id := "block_" ++ toString m.block_counter
  let counter2 := m.block_counter + 1
  let type_name := if block_type = BlockType.logical then "Logical" else "Functional"
  let name := type_name ++ " " ++ toString counter2
  let block : Block :=
    { id := block_id, btype := block_type, name := name, x := x, y := y,
      width := 220, height := 150, parent_id := parent_id }
  let m1 := { m with block_counter := counter2, blocks := dictInsert m.blocks block }
  let m2 :=
    match parent_id with
    | some pid =>
      if pid ≠ "" ∧ presentBlock m1 pid then
        { m1 with blocks := updateBlock m1.blocks pid
                      (fun p => { p with children := p.children ++ [block_id] }) }
      else m1
    | none => m1
  (m2, block_id)

/-- `ModelManager.delete_block`: the `for child_id in block.children[:]`
loop is the fold over the captured children list.  The fuel models the
Python call stack; on well-formed stores a fuel of `blocks.length + 1` is
never exhausted.  `del self.blocks[block_id]` and
`parent.children.remove` are modelled by `filter`/`erase`, which agree
with the source whenever the entry is present (guaranteed on well-formed
stores).  The guard `if block.parent_id and ...` is Python truthiness:
`None` and the empty string are both falsy. -/
def delete_block : Nat → ModelManager → String → ModelManager
  | 0, m, _ => m
  | fuel+1, m, block_id =>
    match findBlock m block_id with
    | none => m
    | some block =>
      let m1 := block.children.foldl (delete_block fuel) m
      let m2 :=
        match block.parent_id with
        | none => m1
        | some pid =>
          if pid ≠ "" ∧ presentBlock m1 pid then
            { m1 with blocks := updateBlock m1.blocks pid
                          (fun p => { p with children := p.children.erase block_id }) }
          else m1
      let keep := m2.connections.filter
        (fun c => c.from_block ≠ block_id ∧ c.to_block ≠ block_id)
      let m3 := { m2 with connections := keep }
      { m3 with blocks := m3.blocks.filter (fun b => b.id ≠ block_id) }

/-- `ModelManager.delete_block` run with sufficient fuel for any
well-formed store. -/
def run_delete_block (m : ModelManager) (block_id : String) : ModelManager :=
  delete_block (m.blocks.length + 1) m block_id

/-- The two augmented assignments `block.x += dx; block.y += dy` of
`move_block` / `_move_children_recursive`. -/
def shiftXY (dx dy : ℚ) (b : Block) : Block :=
  { b with x := b.x + dx, y := b.y + dy }

/-- One iteration of the `for child_id in parent.children` loop of
`_move_children_recursive`: shift the child when present, then recurse
into it (the recursive call is passed in as `recur`). -/
def moveStep (recur : ModelManager → String → ModelManager) (dx dy : ℚ)
    (acc : ModelManager) (child_id : String) : ModelManager :=
  if presentBlock acc child_id then
    recur { acc with blocks := updateBlock acc.blocks child_id (shiftXY dx dy) } child_id
  else acc

/-- `ModelManager._move_children_recursive`: the `for child_id in
parent.children` loop is the fold; each present child is shifted and then
recursed into before the next sibling; fuel as in `delete_block`. -/
def move_children_recursive : Nat → ModelManager → String → ℚ → ℚ → ModelManager
  | 0, m, _, _, _ => m
  | fuel+1, m, parent_id, dx, dy =>
    match findBlock m parent_id with
    | none => m
    | some parent =>
      parent.children.foldl
        (moveStep (fun acc cid => move_children_recursive fuel acc cid dx dy) dx dy) m

/-- `ModelManager.move_block`: no-op on an unknown id, else shift the
block and (when `move_children`) recursively every present descendant. -/
def move_block (m : ModelManager) (block_id : String) (dx dy : ℚ)
    (move_children : Bool := true) : ModelManager :=
  match findBlock m block_id with
  | none => m
  | some _ =>
    let m1 := { m with blocks := updateBlock m.blocks block_id (shiftXY dx dy) }
    if move_children then move_children_recursive (m1.blocks.length + 1) m1 block_id dx dy
    else m1

/-- `ModelManager.is_block_visible`: `none` models a `KeyError` (the
source indexes `self.blocks[...]` without a membership check, both for the
queried block and for each ancestor link) or a `RecursionError` on a
cyclic parent chain (fuel exhaustion). -/
def is_block_visible : Nat → ModelManager → String → Option Bool
  | 0, _, _ => none
  | fuel+1, m, block_id =>
    match findBlock m block_id with
    | none => none
    | some block =>
      match block.parent_id with
      | none => some true
      | some pid =>
        if pid = "" then some true
        else
          match findBlock m pid with
          | none => none
          | some parent =>
            if parent.show_content = false then some false
            else is_block_visible fuel m parent.id

/-- `is_block_visible` run with sufficient fuel for any acyclic store. -/
def run_is_block_visible (m : ModelManager) (block_id : String) : Option Bool :=
  is_block_visible (m.blocks.length + 1) m block_id

/-- The `while current.parent_id:` loop of `get_nesting_level`; `none`
models a `KeyError` on a dangling parent id (fuel exhaustion models the
loop never terminating on a cyclic chain). -/
def nestingLoop : Nat → ModelManager → Block → Nat → Option Nat
  | 0, _, _, _ => none
  | fuel+1, m, current, level =>
    match current.parent_id with
    | none => some level
    | some pid =>
      if pid = "" then some level
      else
        match findBlock m pid with
        | none => none
        | some nxt => nestingLoop fuel m nxt (level + 1)

/-- `ModelManager.get_nesting_level`: `none` models a `KeyError` (also on
the initial `self.blocks[block_id]` lookup). -/
def get_nesting_level (m : ModelManager) (block_id : String) : Option Nat :=
  match findBlock m block_id with
  | none => none
  | some b => nestingLoop (m.blocks.length + 1) m b 0

/-- `ModelManager.create_connection`: note the source performs no
existence check on any of the four referenced ids. -/
def create_connection (m : ModelManager) (from_block to_block : String)
    (from_port to_port : Option String := none) : ModelManager × String :=
  let conn_id := "conn_" ++ toString m.connection_counter
  ({ m with
     connection_counter := m.connection_counter + 1,
     connections := m.connections ++
       [{ id := conn_id, from_block := from_block, to_block := to_block,
          from_port := from_port, to_port := to_port }] }, conn_id)

/-- `ModelManager.delete_connection`. -/
def delete_connection (m : ModelManager) (conn_id : String) : ModelManager :=
  { m with connections := m.connections.filter (fun c => c.id ≠ conn_id) }

/-- `ModelManager.delete_port`: no-op when the block or the port is
unknown; otherwise drop the connections naming the port, then remove the
port (first value-equal occurrence, as Python `list.remove`). -/
def delete_port (m : ModelManager) (block_id port_id : String) : ModelManager :=
  match findBlock m block_id with
  | none => m
  | some block =>
    match get_port_by_id m block_id port_id with
    | none => m
    | some port =>
      let keep := m.connections.filter
        (fun c => c.from_port ≠ some port_id ∧ c.to_port ≠ some port_id)
      let m1 := { m with connections := keep }
      { m1 with blocks := updateBlock m1.blocks block_id
                            (fun b => { b with ports := b.ports.erase port }) }

/-- `ModelManager._point_to_line_distance`, squared: the source returns
the Euclidean distance (a square root); we keep its square, which is
exactly representable in ℚ.  Comparisons of the source's distance against
a nonnegative tolerance correspond to comparing this value against the
squared tolerance. -/
def point_to_line_distance_sq (px py x1 y1 x2 y2 : ℚ) : ℚ :=
  let dx := x2 - x1
  let dy := y2 - y1
  if dx = 0 ∧ dy = 0 then (px - x1)^2 + (py - y1)^2
  else
    let t := max 0 (min 1 (((px - x1) * dx + (py - y1) * dy) / (dx * dx + dy * dy)))
    let cx := x1 + t * dx
    let cy := y1 + t * dy
    (px - cx)^2 + (py - cy)^2

/-- The `intersections` list built by `get_block_edge_point`: the ray from
this block's center toward the target block's center, intersected with the
four rectangle edges (left, right, top, bottom, in source order), keeping
an intersection when the ray parameter t lies in [0,1] and the point lies
within the edge's span.  Each entry is (x, y, abs t). -/
def edgeIntersections (block target : Block) : List (ℚ × ℚ × ℚ) :=
  let cx := block.x + block.width / 2
  let cy := block.y + block.height / 2
  let tx := target.x + target.width / 2
  let ty := target.y + target.height / 2
  let dx := tx - cx
  let dy := ty - cy
  (if dx ≠ 0 then
    (let t := (block.x - cx) / dx
     let y := cy + t * dy
     if 0 ≤ t ∧ t ≤ 1 ∧ block.y ≤ y ∧ y ≤ block.y + block.height
     then [(block.x, y, |t|)] else []) ++
    (let t := (block.x + block.width - cx) / dx
     let y := cy + t * dy
     if 0 ≤ t ∧ t ≤ 1 ∧ block.y ≤ y ∧ y ≤ block.y + block.height
     then [(block.x + block.width, y, |t|)] else [])
   else []) ++
  (if dy ≠ 0 then
    (let t := (block.y - cy) / dy
     let x := cx + t * dx
     if 0 ≤ t ∧ t ≤ 1 ∧ block.x ≤ x ∧ x ≤ block.x + block.width
     then [(x, block.y, |t|)] else []) ++
    (let t := (block.y + block.height - cy) / dy
     let x := cx + t * dx
     if 0 ≤ t ∧ t ≤ 1 ∧ block.x ≤ x ∧ x ≤ block.x + block.width
     then [(x, block.y + block.height, |t|)] else [])
   else [])

/-- The sort key comparison of `get_block_edge_point`:
`intersections.sort(key=lambda p: (p[0]-tx)**2 + (p[1]-ty)**2)` sorts
ascending by squared distance to the target's center. -/
def distLe (tx ty : ℚ) (p q : ℚ × ℚ × ℚ) : Prop :=
  (p.1 - tx)^2 + (p.2.1 - ty)^2 ≤ (q.1 - tx)^2 + (q.2.1 - ty)^2

instance (tx ty : ℚ) : DecidableRel (distLe tx ty) := fun p q =>
  inferInstanceAs (Decidable ((p.1 - tx)^2 + (p.2.1 - ty)^2 ≤ (q.1 - tx)^2 + (q.2.1 - ty)^2))

instance (tx ty : ℚ) : IsTotal (ℚ × ℚ × ℚ) (distLe tx ty) :=
  ⟨fun p q => le_total _ _⟩

instance (tx ty : ℚ) : IsTrans (ℚ × ℚ × ℚ) (distLe tx ty) :=
  ⟨fun p q r hpq hqr => le_trans hpq hqr⟩

/-- `ModelManager.get_block_edge_point`: sort the intersections by squared
distance to the target's center (Python's stable sort, modelled by the
stable `insertionSort`) and return the first; with no intersection, fall
back to this block's own center. -/
def get_block_edge_point (block target : Block) : ℚ × ℚ :=
  let cx := block.x + block.width / 2
  let cy := block.y + block.height / 2
  let tx := target.x + target.width / 2
  let ty := target.y + target.height / 2
  match (edgeIntersections block target).insertionSort (distLe tx ty) with
  | [] => (cx, cy)
  | p :: _ => (p.1, p.2.1)

/-- The center of a block's rectangle, as computed inline by
`get_block_edge_point`. -/
def blockCenter (b : Block) : ℚ × ℚ :=
  (b.x + b.width / 2, b.y + b.height / 2)

/-- A point lies on the boundary of a block's rectangle: on the left or
right edge with its y within the vertical span, or on the top or bottom
edge with its x within the horizontal span. -/
def onBoundary (b : Block) (p : ℚ × ℚ) : Prop :=
  ((p.1 = b.x ∨ p.1 = b.x + b.width) ∧ b.y ≤ p.2 ∧ p.2 ≤ b.y + b.height)
  ∨ ((p.2 = b.y ∨ p.2 = b.y + b.height) ∧ b.x ≤ p.1 ∧ p.1 ≤ b.x + b.width)

/-- `ModelManager._get_connection_point`: the port's position when the
endpoint is bound to a port id that resolves on the named block, else the
edge-point fallback.  The `is_source` argument exists in the source
signature but is never read. -/
def get_connection_point (m : ModelManager) (block other_block : Block)
    (port_id : Option String) (is_source : Bool) : ℚ × ℚ :=
  match port_id with
  | some pid =>
    if pid ≠ "" then
      match get_port_by_id m block.id pid with
      | some port => get_port_position block port (block.ports.indexOf port)
      | none => get_block_edge_point block other_block
    else get_block_edge_point block other_block
  | none => get_block_edge_point block other_block

/-- `ModelManager.get_connection_at`: first connection (in store order)
whose segment passes within `tolerance` of the query point; connections
with an absent endpoint block are skipped.  The source compares the
Euclidean distance with the tolerance; for a nonnegative tolerance this
is the squared comparison used here. -/
def get_connection_at (m : ModelManager) (x y tolerance : ℚ) : Option Connection :=
  connLoop m.connections
where connLoop : List Connection → Option Connection
  | [] => none
  | conn :: rest =>
    match findBlock m conn.from_block, findBlock m conn.to_block with
    | some fromB, some toB =>
      let p1 := get_connection_point m fromB toB conn.from_port true
      let p2 := get_connection_point m toB fromB conn.to_port false
      if point_to_line_distance_sq x y p1.1 p1.2 p2.1 p2.2 < tolerance^2 then some conn
      else connLoop rest
    | _, _ => connLoop rest

/-- One iteration of the `for child in children:` loop of
`auto_layout_children`, threading the store and the running y coordinate:
place the child at `(cxp, y)` with size `(cwp, h)`, then recurse into it
(via `recur`) when it has children and shows content, then advance y by
`h + sp`. -/
def layoutStep (recur : ModelManager → String → ModelManager) (cxp cwp h sp : ℚ)
    (st : ModelManager × ℚ) (cid : String) : ModelManager × ℚ :=
  let placed := updateBlock st.1.blocks cid
    (fun c => { c with x := cxp, y := st.2, width := cwp, height := h })
  let mA := { st.1 with blocks := placed }
  let mB :=
    match findBlock mA cid with
    | some c => if c.children ≠ [] ∧ c.show_content then recur mA c.id else mA
    | none => mA
  (mB, st.2 + h + sp)

/-- `ModelManager.auto_layout_children`: stack the present children
vertically in the parent's content area with uniform height
`max(60, (ch − spacing·(n−1))/n)`, recurse depth-first into a child that
has children and shows content, then grow (never shrink) the parent to
fit the stack.  The `for child in children:` loop is the fold of
`layoutStep`.  Fuel as in `delete_block`. -/
def auto_layout_children : Nat → ModelManager → String → ModelManager
  | 0, m, _ => m
  | fuel+1, m, parent_id =>
    match findBlock m parent_id with
    | none => m
    | some parent =>
      if parent.children = [] ∨ parent.show_content = false then m
      else
        let ca := parent.get_content_area
        let cx := ca.1
        let cy := ca.2.1
        let cw := ca.2.2.1
        let ch := ca.2.2.2
        let childIds := parent.children.filter (fun cid => presentBlock m cid)
        if childIds = [] then m
        else
          let n := childIds.length
          let child_height := max 60 ((ch - parent.child_spacing * ((n : ℚ) - 1)) / (n : ℚ))
          let m1 := (childIds.foldl
            (layoutStep (auto_layout_children fuel) (cx + parent.padding)
              (cw - 2 * parent.padding) child_height parent.child_spacing)
            ((m, cy) : ModelManager × ℚ)).1
          let total_height := (n : ℚ) * child_height + ((n : ℚ) - 1) * parent.child_spacing
          let min_parent_height := total_height + parent.header_height +
            parent.port_section_width + 2 * parent.padding
          match findBlock m1 parent_id with
          | none => m1
          | some p =>
            if p.height < min_parent_height then
              { m1 with blocks := updateBlock m1.blocks parent_id
                          (fun b => { b with height := min_parent_height }) }
            else m1

/-- `auto_layout_children` run with sufficient fuel for any well-formed
store. -/
def run_auto_layout_children (m : ModelManager) (parent_id : String) : ModelManager :=
  auto_layout_children (m.blocks.length + 1) m parent_id

/-- A snapshot document at the store boundary (file_io.py feeds the parsed
JSON into `ModelManager.from_dict`).  `none` for a collection models the
exception raised while evaluating it: a missing `blocks`/`connections`
key, or a malformed record inside the collection (`Block.from_dict` /
`Connection(**c)` raising).  In Python the whole right-hand side of each
assignment is evaluated before the store field changes, so such a failure
leaves that field untouched. -/
structure Document where
  blocksField : Option (List Block)
  connectionsField : Option (List Connection)

/-- `ModelManager.from_dict` (and `FileIO.import_from_dict`, which wraps
it in try/except and reports success as a Bool): the four assignments in
source order, stopping at the first failure and leaving the fields
already assigned in their new state. -/
def from_dict (m : ModelManager) (d : Document) : ModelManager × Bool :=
  match d.blocksField with
  | none => (m, false)
  | some bs =>
    let m1 := { m with blocks := dictOfBlocks bs }
    match d.connectionsField with
    | none => (m1, false)
    | some cs =>
      let m2 := { m1 with connections := cs }
      match suffixMax? (m2.blocks.map (fun b => b.id)) with
      | none => (m2, false)
      | some bmax =>
        let m3 := { m2 with block_counter := bmax + 1 }
        match suffixMax? (cs.map (fun c => c.id)) with
        | none => (m3, false)
        | some cmax => ({ m3 with connection_counter := cmax + 1 }, true)

/-- Concrete fixture: the block of the port-placement example
(header_height 40, width 220, height 150, placed at the origin). -/
def exBlock220 : Block :=
  { id := "block_0", btype := BlockType.logical, name := "Logical 1",
    x := 0, y := 0, width := 220, height := 150 }

/-- Concrete fixture: a right-side port with offset 0.5. -/
def exPortRight : Port :=
  { id := "port_0", name := "p", side := "right", offset := 1/2 }

/-- Concrete fixture: a store holding just `exBlock220`. -/
def exStore1 : ModelManager := { blocks := [exBlock220] }

/-- Concrete fixture: the store produced by
`create_port exStore1 "block_0" "q" "right"`. -/
def exStoreCP : ModelManager :=
  { exStore1 with
    port_counter := exStore1.port_counter + 1,
    blocks := updateBlock exStore1.blocks "block_0"
      (fun b => { b with ports := b.ports ++
        [{ id := "port_" ++ toString exStore1.port_counter, name := "q",
           side := "right", offset := 1/2 }] }) }

/-- Concrete fixture: a pre-existing store with one connection, used to
exhibit a partial import. -/
def exStoreC2 : ModelManager :=
  { connections := [{ id := "conn_0", from_block := "x", to_block := "y" }],
    connection_counter := 1 }

/-- Concrete fixture: a document whose blocks collection parses but whose
connections collection is malformed or missing. -/
def exDocC2 : Document :=
  { blocksField := some [exBlock220], connectionsField := none }

/-- Concrete fixture: a store with nonzero counters, used to exhibit the
counter values produced by loading an empty snapshot. -/
def exStoreC3 : ModelManager :=
  { block_counter := 9, connection_counter := 9, port_counter := 5 }

/-- Concrete fixture: an empty snapshot. -/
def exDocEmpty : Document :=
  { blocksField := some [], connectionsField := some [] }

/-- Concrete fixture: a block whose id has numeric suffix 7. -/
def exBlock7 : Block :=
  { id := "block_7", btype := BlockType.logical, name := "b7", x := 0, y := 0 }

/-- Concrete fixture: a snapshot whose highest block id is `block_7`. -/
def exDoc7 : Document :=
  { blocksField := some [exBlock7], connectionsField := some [] }

/-- Concrete fixture: the store obtained by loading `exDoc7` into the
empty store. -/
def exR7 : ModelManager :=
  { blocks := dictOfBlocks [exBlock7], connections := [],
    block_counter := 8, connection_counter := 1, port_counter := 0 }

/-- Concrete fixture: a 100×100 block at the origin. -/
def exBlockA : Block :=
  { id := "block_0", btype := BlockType.logical, name := "A",
    x := 0, y := 0, width := 100, height := 100 }

/-- Concrete fixture: a 100×100 block at (300, 0). -/
def exBlockB : Block :=
  { id := "block_1", btype := BlockType.logical, name := "B",
    x := 300, y := 0, width := 100, height := 100 }

/-- Concrete fixture: a port-free connection between the two blocks. -/
def exConnAB : Connection :=
  { id := "conn_0", from_block := "block_0", to_block := "block_1" }

/-- Concrete fixture: the two blocks and the connection between them. -/
def exStoreHit : ModelManager :=
  { blocks := [exBlockA, exBlockB], connections := [exConnAB] }

/-- Concrete fixture: a store whose only block has a dangling parent id. -/
def exStoreDangle : ModelManager :=
  { blocks := [{ id := "block_0", btype := BlockType.logical, name := "d",
                 x := 0, y := 0, parent_id := some "block_9" }] }

/-- Concrete fixture: a small block strictly inside `exBlockA`, centered
at (55, 55). -/
def exBlockInner : Block :=
  { id := "block_2", btype := BlockType.logical, name := "I",
    x := 50, y := 50, width := 10, height := 10 }

/-- Concrete fixture: a 220×165 parent (content height 100) with five
leaf children, for the layout example. -/
def exLayKid (i : Nat) : Block :=
  { id := "block_" ++ toString i, btype := BlockType.logical, name := "k",
    x := 0, y := 0, parent_id := some "block_9" }

/-- Concrete fixture: the parent of the five layout children. -/
def exLayParent : Block :=
  { id := "block_9", btype := BlockType.logical, name := "P",
    x := 0, y := 0, width := 220, height := 165,
    children := ["block_1", "block_2", "block_3", "block_4", "block_5"] }

/-- Concrete fixture: the five-children layout store. -/
def exStoreLay : ModelManager :=
  { blocks := [exLayParent, exLayKid 1, exLayKid 2, exLayKid 3, exLayKid 4, exLayKid 5] }

/-- Concrete fixture: grandparent → child → grandchild chain for the
nested-layout example (parent 220×150). -/
def exBlockP : Block :=
  { id := "block_0", btype := BlockType.logical, name := "P",
    x := 0, y := 0, width := 220, height := 150, children := ["block_1"] }

/-- Concrete fixture: the middle block of the nested-layout example. -/
def exBlockC : Block :=
  { id := "block_1", btype := BlockType.logical, name := "C",
    x := 0, y := 0, parent_id := some "block_0", children := ["block_2"] }

/-- Concrete fixture: the grandchild of the nested-layout example. -/
def exBlockG : Block :=
  { id := "block_2", btype := BlockType.logical, name := "G",
    x := 0, y := 0, parent_id := some "block_1" }

/-- Concrete fixture: the nested-layout store. -/
def exStoreNest : ModelManager :=
  { blocks := [exBlockP, exBlockC, exBlockG] }

/-- Concrete fixture: `exStoreNest` after the layout loop of `block_0`
has placed `block_1` (uniform height 85), just before recursing into
it. -/
def exStoreNest1 : ModelManager :=
  let placed := updateBlock exStoreNest.blocks "block_1"
    (fun c => { c with
                  x := exBlockP.get_content_area.1 + exBlockP.padding,
                  y := exBlockP.get_content_area.2.1,
                  width := exBlockP.get_content_area.2.2.1 - 2 * exBlockP.padding,
                  height := (85 : ℚ) })
  { exStoreNest with blocks := placed }

/-- Concrete fixture: the placed copy of `exBlockC` (uniform height 85)
as stored in `exStoreNest1`. -/
def exBlockC85 : Block :=
  { exBlockC with
      x := exBlockP.get_content_area.1 + exBlockP.padding,
      y := exBlockP.get_content_area.2.1,
      width := exBlockP.get_content_area.2.2.1 - 2 * exBlockP.padding,
      height := (85 : ℚ) }

/-- Concrete fixture: `exStoreNest1` after the recursive layout of
`block_1` has placed its grandchild `block_2` (height 60), just before
`block_1` is grown. -/
def exStoreNest2 : ModelManager :=
  let placed := updateBlock exStoreNest1.blocks "block_2"
    (fun c => { c with
                  x := exBlockC85.get_content_area.1 + exBlockC85.padding,
                  y := exBlockC85.get_content_area.2.1,
                  width := exBlockC85.get_content_area.2.2.1 - 2 * exBlockC85.padding,
                  height := (60 : ℚ) })
  { exStoreNest1 with blocks := placed }

/-! ### Hierarchy structure: parent links, ancestry, well-formedness

The spec's structural-integrity section promises bidirectional
parent/children consistency for every store reachable through the API;
the delete-cascade and move-propagation claims are proved under that
invariant, phrased as `StoreWF` below. -/

/-- The stored parent link of a block: `self.blocks[id].parent_id`,
defined only when the block itself is present. -/
def parentOf (m : ModelManager) (id : String) : Option String :=
  match findBlock m id with
  | some b => b.parent_id
  | none => none

/-- `Anc m a d`: `a` is a strict ancestor of `d` through the stored
parent links (so every node of the witnessing chain up to but not
necessarily including `a` is present in the store). -/
inductive Anc (m : ModelManager) : String → String → Prop where
  | direct : ∀ {a d : String}, parentOf m d = some a → Anc m a d
  | up : ∀ {a p d : String}, parentOf m d = some p → Anc m a p → Anc m a d

/-- Forest well-formedness of a store, witnessed by a depth function
`rank`: children lists hold no duplicates, the children and parent links
agree in both directions, and every present block with a present parent
sits one level below it. -/
structure StoreWF (m : ModelManager) (rank : String → Nat) : Prop where
  childrenNodup : ∀ id b, findBlock m id = some b → b.children.Nodup
  childParent : ∀ id b, findBlock m id = some b → ∀ cid, cid ∈ b.children →
    ∀ c, findBlock m cid = some c → c.parent_id = some id
  parentChild : ∀ id b, findBlock m id = some b → ∀ pid, b.parent_id = some pid →
    ∀ p, findBlock m pid = some p → id ∈ p.children
  rankStep : ∀ id b, findBlock m id = some b → ∀ pid, b.parent_id = some pid →
    presentBlock m pid = true → rank id = rank pid + 1

/-- `MovedOn m m' dx dy S`: `m'` is `m` with exactly the blocks named by
`S` shifted by `(dx, dy)` and everything else identical — lookups
outside `S` are unchanged, absent ids stay absent, and the key sequence,
connections and counters are untouched. -/
structure MovedOn (m m' : ModelManager) (dx dy : ℚ) (S : String → Prop) : Prop where
  moved : ∀ id b, findBlock m id = some b → S id → findBlock m' id = some (shiftXY dx dy b)
  kept : ∀ id b, findBlock m id = some b → ¬ S id → findBlock m' id = some b
  absent : ∀ id, findBlock m id = none → findBlock m' id = none
  idsEq : m'.blocks.map (fun b => b.id) = m.blocks.map (fun b => b.id)
  connsEq : m'.connections = m.connections
  bcEq : m'.block_counter = m.block_counter
  ccEq : m'.connection_counter = m.connection_counter
  pcEq : m'.port_counter = m.port_counter

/-- The ids reached by one of the loop's remaining children `c ∈ l`:
either `c` itself (when present) or a strict descendant of such a `c`. -/
def descSetFrom (m : ModelManager) (l : List String) (d : String) : Prop :=
  ∃ c, c ∈ l ∧ presentBlock m c = true ∧ (d = c ∨ Anc m c d)

/-- Invariant of the children loop of `delete_block` rooted at `did`
(whose captured record in the starting store `m` is `bd`): the ids in
`Rem` are gone, other blocks are untouched except `did` itself, whose
children list has lost exactly the removed entries, and the connection
list has lost exactly the connections naming a removed id. -/
structure DelLoopInv (m : ModelManager) (did : String) (bd : Block)
    (macc : ModelManager) (Rem : String → Prop) : Prop where
  removed : ∀ id, Rem id → findBlock macc id = none
  kept : ∀ id b, findBlock m id = some b → ¬ Rem id → id ≠ did → findBlock macc id = some b
  root : ∃ ch : List String, findBlock macc did = some { bd with children := ch }
    ∧ ch.Sublist bd.children ∧ (∀ e, e ∈ bd.children → ¬ Rem e → e ∈ ch)
  absent : ∀ id, findBlock m id = none → findBlock macc id = none
  conns : ∀ conn : Connection, conn ∈ macc.connections ↔
    (conn ∈ m.connections ∧ ¬ Rem conn.from_block ∧ ¬ Rem conn.to_block)
  bcEq : macc.block_counter = m.block_counter
  ccEq : macc.connection_counter = m.connection_counter
  pcEq : macc.port_counter = m.port_counter

/-- Characterization of one full `delete_block` call on root `did` with
captured record `bd` and removal set `S`: every member of `S` is gone,
every survivor keeps its record except `did`'s parent, which loses `did`
from its children list, absent ids stay absent, exactly the connections
naming a member of `S` are dropped, and the counters are untouched. -/
structure DeleteSpec (m : ModelManager) (did : String) (bd : Block) (r : ModelManager)
    (S : String → Prop) : Prop where
  gone : ∀ id, S id → findBlock r id = none
  kept : ∀ id b, findBlock m id = some b → ¬ S id →
    findBlock r id = some (if bd.parent_id = some id
      then { b with children := b.children.erase did } else b)
  absent : ∀ id, findBlock m id = none → findBlock r id = none
  conns : ∀ conn : Connection, conn ∈ r.connections ↔
    (conn ∈ m.connections ∧ ¬ S conn.from_block ∧ ¬ S conn.to_block)
  bcEq : r.block_counter = m.block_counter
  ccEq : r.connection_counter = m.connection_counter
  pcEq : r.port_counter = m.port_counter

/-- Concrete fixture: a depth function for the nested P → C → G store. -/
def exRankNest (id : String) : Nat :=
  if id = "block_0" then 0 else if id = "block_1" then 1 else 2

/-- Concrete fixture: a connection from the root into the grandchild
(removed by deleting the middle block). -/
def exConnDel1 : Connection :=
  { id := "conn_0", from_block := "block_0", to_block := "block_2" }

/-- Concrete fixture: a self-loop connection on the root (kept by
deleting the middle block). -/
def exConnDel2 : Connection :=
  { id := "conn_1", from_block := "block_0", to_block := "block_0" }

/-- Concrete fixture: the nested P → C → G store with two connections,
for exercising the delete cascade. -/
def exStoreDel : ModelManager :=
  { exStoreNest with connections := [exConnDel1, exConnDel2] }

/-! ## Theorems -/

theorem find_updateBlock_self (l : List Block) (id : String) (f : Block → Block)
    (hf : ∀ b : Block, (f b).id = b.id) :
    (updateBlock l id f).find? (fun b => b.id = id) =
      (l.find? (fun b => b.id = id)).map f := by
  induction l with
  | nil => rfl
  | cons b l ih =>
    by_cases hb : b.id = id
    · simp [updateBlock, hb, hf]
    · simp only [updateBlock, List.map_cons, if_neg hb]
      rw [List.find?_cons_of_neg, List.find?_cons_of_neg]
      · exact ih
      · simp [hb]
      · simp [hb]

/-- Claim C9: for every block and every port on it, the port's absolute
position follows the side formulas: left → (x, y + header + (height −
header)·offset); right → same y at x + width; top → (x + width·offset,
y + header); bottom → (x + width·offset, y + height). -/
theorem C9_port_position_formulas (block : Block) (port : Port) (index : Nat) :
    (port.side = "left" → get_port_position block port index =
      (block.x,
       block.y + block.header_height + (block.height - block.header_height) * port.offset))
    ∧ (port.side = "right" → get_port_position block port index =
      (block.x + block.width,
       block.y + block.header_height + (block.height - block.header_height) * port.offset))
    ∧ (port.side = "top" → get_port_position block port index =
      (block.x + block.width * port.offset, block.y + block.header_height))
    ∧ (port.side = "bottom" → get_port_position block port index =
      (block.x + block.width * port.offset, block.y + block.height)) := by
  refine ⟨fun h => ?_, fun h => ?_, fun h => ?_, fun h => ?_⟩ <;>
    simp [get_port_position, h]

/-- Witness for C9: the block with header_height 40, width 220, height 150
at the origin and a right-side port with offset 0.5 resolve to (220, 95). -/
theorem C9_port_position_witness :
    exPortRight.side = "right" ∧
      get_port_position exBlock220 exPortRight 0 = (220, 95) := by
  refine ⟨rfl, ?_⟩
  have h := (C9_port_position_formulas exBlock220 exPortRight 0).2.1 rfl
  rw [h]
  norm_num [exBlock220, exPortRight]

/-- Claim C10: `get_port_position` never reads the index argument, so the
position depends only on the block's geometry and the port's side and
offset; and `create_port` always appends a port with offset 0.5, so ports
created on the same side of a block resolve to the identical point. -/
theorem C10_port_position_index_free :
    (∀ (b : Block) (p : Port) (i j : Nat),
      get_port_position b p i = get_port_position b p j)
    ∧ (∀ (b : Block) (p q : Port) (i j : Nat), p.side = q.side → p.offset = q.offset →
      get_port_position b p i = get_port_position b q j)
    ∧ (∀ (m m2 : ModelManager) (block_id name side pid : String) (b : Block),
      create_port m block_id name side = some (m2, pid) →
      findBlock m block_id = some b →
      findBlock m2 block_id =
        some { b with ports := b.ports ++ [{ id := pid, name := name, side := side, offset := 1/2 }] }) := by
  refine ⟨fun b p i j => rfl, fun b p q i j hs ho => ?_, ?_⟩
  · simp only [get_port_position, hs, ho]
  · intro m m2 block_id name side pid b hcp hfb
    unfold create_port at hcp
    by_cases hp : presentBlock m block_id
    · simp only [hp, if_true, Option.some.injEq, Prod.mk.injEq] at hcp
      obtain ⟨hm2, hpid⟩ := hcp
      subst hpid
      subst hm2
      unfold findBlock at hfb ⊢
      have key := find_updateBlock_self m.blocks block_id
        (fun bb => { bb with ports := bb.ports ++
          [{ id := "port_" ++ toString m.port_counter, name := name,
             side := side, offset := 1/2 }] }) (fun bb => rfl)
      rw [key, hfb]
      rfl
    · simp [hp] at hcp

/-- Witness for C10: on a store holding the fixture block, two right-side
ports with offset 0.5 resolve to the same position regardless of index,
and `create_port` appends the offset-0.5 port record to the block. -/
theorem C10_port_position_index_free_witness :
    (get_port_position exBlock220 exPortRight 0 =
      get_port_position exBlock220
        { id := "port_9", name := "q", side := "right", offset := 1/2 } 3)
    ∧ ("port_" ++ toString exStore1.port_counter) = "port_0"
    ∧ findBlock exStoreCP "block_0" =
      some { exBlock220 with ports := exBlock220.ports ++
        [{ id := "port_" ++ toString exStore1.port_counter, name := "q",
           side := "right", offset := 1/2 }] } :=
  ⟨C10_port_position_index_free.2.1 exBlock220 exPortRight
      { id := "port_9", name := "q", side := "right", offset := 1/2 } 0 3 rfl rfl,
   by decide,
   C10_port_position_index_free.2.2 exStore1 exStoreCP "block_0" "q" "right"
      ("port_" ++ toString exStore1.port_counter) exBlock220 rfl rfl⟩

/-- Claim C8 is refuted on `create_connection`: on the empty store, where
neither endpoint block exists, `create_connection` does not fail — it
creates the connection and advances the counter. -/
theorem C8_counterexample :
    (create_connection { } "block_0" "block_1" none none).1.connections =
      [{ id := "conn_0", from_block := "block_0", to_block := "block_1",
         from_port := none, to_port := none }]
    ∧ (create_connection { } "block_0" "block_1" none none).1.connection_counter = 1
    ∧ presentBlock ({ } : ModelManager) "block_0" = false
    ∧ presentBlock ({ } : ModelManager) "block_1" = false := by
  refine ⟨?_, rfl, rfl, rfl⟩
  decide

/-- Claim C8 (amended): `create_port` on an unknown block raises
(`none`) without mutating; `delete_block`, `delete_port` and `move_block`
on unknown ids return silently with the store unchanged; but
`create_connection` performs no existence check at all and unconditionally
appends the connection and advances the counter. -/
theorem C8_unknown_id_fail_fast :
    (∀ (m : ModelManager) (bid name side : String),
      findBlock m bid = none → create_port m bid name side = none)
    ∧ (∀ (m : ModelManager) (bid : String),
      findBlock m bid = none → run_delete_block m bid = m)
    ∧ (∀ (m : ModelManager) (bid pid : String),
      findBlock m bid = none → delete_port m bid pid = m)
    ∧ (∀ (m : ModelManager) (bid pid : String),
      get_port_by_id m bid pid = none → delete_port m bid pid = m)
    ∧ (∀ (m : ModelManager) (bid : String) (dx dy : ℚ) (mc : Bool),
      findBlock m bid = none → move_block m bid dx dy mc = m)
    ∧ (∀ (m : ModelManager) (fb tb : String) (fp tp : Option String),
      create_connection m fb tb fp tp =
        ({ m with
           connection_counter := m.connection_counter + 1,
           connections := m.connections ++
             [{ id := "conn_" ++ toString m.connection_counter, from_block := fb,
                to_block := tb, from_port := fp, to_port := tp }] },
         "conn_" ++ toString m.connection_counter)) := by
  refine ⟨?_, ?_, ?_, ?_, ?_, fun m fb tb fp tp => rfl⟩
  · intro m bid name side h
    simp [create_port, presentBlock, h]
  · intro m bid h
    simp [run_delete_block, delete_block, h]
  · intro m bid pid h
    simp [delete_port, h]
  · intro m bid pid h
    unfold delete_port
    cases hfb : findBlock m bid with
    | none => rfl
    | some b => rw [h]
  · intro m bid dx dy mc h
    simp [move_block, h]

/-- Witness for C8 (amended): on the empty store every mutation on the
unknown id `block_0` is a no-op (or raises, for `create_port`). -/
theorem C8_unknown_id_fail_fast_witness :
    create_port { } "block_0" "p" "left" = none
    ∧ run_delete_block { } "block_0" = ({ } : ModelManager)
    ∧ delete_port { } "block_0" "port_0" = ({ } : ModelManager)
    ∧ move_block { } "block_0" 3 4 true = ({ } : ModelManager) :=
  ⟨C8_unknown_id_fail_fast.1 { } "block_0" "p" "left" rfl,
   C8_unknown_id_fail_fast.2.1 { } "block_0" rfl,
   C8_unknown_id_fail_fast.2.2.1 { } "block_0" "port_0" rfl,
   C8_unknown_id_fail_fast.2.2.2.2.1 { } "block_0" 3 4 true rfl⟩

/-- Claim C2 is refuted: importing `exDocC2` (blocks parse, connections
malformed/missing) into the store `exStoreC2` reports failure but leaves
the store partially replaced — the blocks collection has been swapped to
the document's single block while the old connections remain. -/
theorem C2_counterexample :
    (from_dict exStoreC2 exDocC2).2 = false
    ∧ (from_dict exStoreC2 exDocC2).1.connections = exStoreC2.connections
    ∧ (from_dict exStoreC2 exDocC2).1.blocks.length = 1
    ∧ exStoreC2.blocks.length = 0
    ∧ (from_dict exStoreC2 exDocC2).1 ≠ exStoreC2 := by
  have h1 : (from_dict exStoreC2 exDocC2).1.blocks.length = 1 := rfl
  have h2 : exStoreC2.blocks.length = 0 := rfl
  refine ⟨rfl, rfl, h1, h2, fun h => ?_⟩
  rw [h] at h1
  exact absurd (h2.symm.trans h1) (by decide)

theorem from_dict_fail_blocks (m : ModelManager) (d : Document)
    (h : d.blocksField = none) : from_dict m d = (m, false) := by
  simp [from_dict, h]

theorem from_dict_fail_conns (m : ModelManager) (d : Document) (bs : List Block)
    (hb : d.blocksField = some bs) (hc : d.connectionsField = none) :
    from_dict m d = ({ m with blocks := dictOfBlocks bs }, false) := by
  simp [from_dict, hb, hc]

theorem from_dict_fail_bcounter (m : ModelManager) (d : Document) (bs : List Block)
    (cs : List Connection) (hb : d.blocksField = some bs) (hc : d.connectionsField = some cs)
    (hs : suffixMax? ((dictOfBlocks bs).map (fun b => b.id)) = none) :
    from_dict m d =
      ({ m with
         blocks := dictOfBlocks bs,
         connections := cs }, false) := by
  simp [from_dict, hb, hc, hs]

theorem from_dict_fail_ccounter (m : ModelManager) (d : Document) (bs : List Block)
    (cs : List Connection) (bmax : Nat)
    (hb : d.blocksField = some bs) (hc : d.connectionsField = some cs)
    (hs : suffixMax? ((dictOfBlocks bs).map (fun b => b.id)) = some bmax)
    (hcs : suffixMax? (cs.map (fun c => c.id)) = none) :
    from_dict m d =
      ({ m with
         blocks := dictOfBlocks bs,
         connections := cs,
         block_counter := bmax + 1 }, false) := by
  simp [from_dict, hb, hc, hs, hcs]

theorem from_dict_success (m : ModelManager) (d : Document) (bs : List Block)
    (cs : List Connection) (bmax cmax : Nat)
    (hb : d.blocksField = some bs) (hc : d.connectionsField = some cs)
    (hs : suffixMax? ((dictOfBlocks bs).map (fun b => b.id)) = some bmax)
    (hcs : suffixMax? (cs.map (fun c => c.id)) = some cmax) :
    from_dict m d =
      ({ m with
         blocks := dictOfBlocks bs,
         connections := cs,
         block_counter := bmax + 1,
         connection_counter := cmax + 1 }, true) := by
  simp [from_dict, hb, hc, hs, hcs]

theorem from_dict_port_counter (m : ModelManager) (d : Document) :
    (from_dict m d).1.port_counter = m.port_counter := by
  cases hb : d.blocksField with
  | none => rw [from_dict_fail_blocks m d hb]
  | some bs =>
    cases hc : d.connectionsField with
    | none => rw [from_dict_fail_conns m d bs hb hc]
    | some cs =>
      cases hs : suffixMax? ((dictOfBlocks bs).map (fun b => b.id)) with
      | none => rw [from_dict_fail_bcounter m d bs cs hb hc hs]
      | some bmax =>
        cases hcs : suffixMax? (cs.map (fun c => c.id)) with
        | none => rw [from_dict_fail_ccounter m d bs cs bmax hb hc hs hcs]
        | some cmax => rw [from_dict_success m d bs cs bmax cmax hb hc hs hcs]

/-- Claim C2 (amended): the import is not atomic.  A failure while the
blocks collection is being parsed leaves the store untouched; after the
blocks assignment, each later failure (connections parse, block-counter
reseed, connection-counter reseed) leaves the assignments already made in
place and reports failure; the port counter is never modified. -/
theorem C2_import_characterization (m : ModelManager) (d : Document) :
    (d.blocksField = none → from_dict m d = (m, false))
    ∧ (∀ bs, d.blocksField = some bs → d.connectionsField = none →
        from_dict m d = ({ m with blocks := dictOfBlocks bs }, false))
    ∧ (∀ bs cs, d.blocksField = some bs → d.connectionsField = some cs →
        suffixMax? ((dictOfBlocks bs).map (fun b => b.id)) = none →
        from_dict m d =
          ({ m with
             blocks := dictOfBlocks bs,
             connections := cs }, false))
    ∧ (∀ bs cs bmax, d.blocksField = some bs → d.connectionsField = some cs →
        suffixMax? ((dictOfBlocks bs).map (fun b => b.id)) = some bmax →
        suffixMax? (cs.map (fun c => c.id)) = none →
        from_dict m d =
          ({ m with
             blocks := dictOfBlocks bs,
             connections := cs,
             block_counter := bmax + 1 }, false))
    ∧ (∀ bs cs bmax cmax, d.blocksField = some bs → d.connectionsField = some cs →
        suffixMax? ((dictOfBlocks bs).map (fun b => b.id)) = some bmax →
        suffixMax? (cs.map (fun c => c.id)) = some cmax →
        from_dict m d =
          ({ m with
             blocks := dictOfBlocks bs,
             connections := cs,
             block_counter := bmax + 1,
             connection_counter := cmax + 1 }, true))
    ∧ (from_dict m d).1.port_counter = m.port_counter := by
  refine ⟨fun h => from_dict_fail_blocks m d h,
    fun bs hb hc => from_dict_fail_conns m d bs hb hc,
    fun bs cs hb hc hs => from_dict_fail_bcounter m d bs cs hb hc hs,
    fun bs cs bmax hb hc hs hcs => from_dict_fail_ccounter m d bs cs bmax hb hc hs hcs,
    fun bs cs bmax cmax hb hc hs hcs => from_dict_success m d bs cs bmax cmax hb hc hs hcs,
    from_dict_port_counter m d⟩

/-- Witness for C2 (amended): the partial branch at the concrete fixtures
(blocks parse, connections missing), and the all-success branch on the
snapshot holding `block_7`. -/
theorem C2_import_characterization_witness :
    from_dict exStoreC2 exDocC2 = ({ exStoreC2 with blocks := dictOfBlocks [exBlock220] }, false)
    ∧ from_dict exStoreC3 exDoc7 =
      ({ exStoreC3 with
         blocks := dictOfBlocks [exBlock7],
         connections := [],
         block_counter := 7 + 1,
         connection_counter := 0 + 1 }, true) :=
  ⟨(C2_import_characterization exStoreC2 exDocC2).2.1 [exBlock220] rfl rfl,
   (C2_import_characterization exStoreC3 exDoc7).2.2.2.2.1 [exBlock7] [] 7 0 rfl rfl rfl rfl⟩

/-- Claim C3 is refuted: loading the empty snapshot into a store whose
port counter is 5 succeeds and leaves block and connection counters at 1
(`max([], default=0) + 1`), not 0 as claimed, and the port counter is not
reseeded at all (it stays 5, though the loaded store owns no ports). -/
theorem C3_counterexample :
    (from_dict exStoreC3 exDocEmpty).2 = true
    ∧ (from_dict exStoreC3 exDocEmpty).1.blocks = []
    ∧ (from_dict exStoreC3 exDocEmpty).1.connections = []
    ∧ (from_dict exStoreC3 exDocEmpty).1.block_counter = 1
    ∧ (from_dict exStoreC3 exDocEmpty).1.connection_counter = 1
    ∧ (from_dict exStoreC3 exDocEmpty).1.port_counter = 5 :=
  ⟨rfl, rfl, rfl, rfl, rfl, rfl⟩

/-- Claim C3 (amended): a successful load reseeds the block and
connection counters to the maximum numeric id suffix of the loaded
collection plus one, where the empty collection yields 0 + 1 = 1; the
port counter is left untouched.  A freshly created block's id is always
`block_` followed by the current block counter, so after loading a
snapshot whose highest block id is `block_7` the next block is
`block_8`. -/
theorem C3_counter_reseed :
    (∀ (m : ModelManager) (d : Document) (bs : List Block) (cs : List Connection)
        (r : ModelManager),
      d.blocksField = some bs → d.connectionsField = some cs →
      from_dict m d = (r, true) →
        r.blocks = dictOfBlocks bs
        ∧ r.connections = cs
        ∧ (∃ bmax, suffixMax? (r.blocks.map (fun b => b.id)) = some bmax
            ∧ r.block_counter = bmax + 1)
        ∧ (∃ cmax, suffixMax? (cs.map (fun c => c.id)) = some cmax
            ∧ r.connection_counter = cmax + 1)
        ∧ r.port_counter = m.port_counter)
    ∧ (∀ (m : ModelManager) (t : BlockType) (x y : ℚ) (p : Option String),
        (create_block m t x y p).2 = "block_" ++ toString m.block_counter) := by
  constructor
  · intro m d bs cs r hb hc hr
    cases hs : suffixMax? ((dictOfBlocks bs).map (fun b => b.id)) with
    | none =>
      rw [from_dict_fail_bcounter m d bs cs hb hc hs] at hr
      exact absurd (congrArg Prod.snd hr) (by simp)
    | some bmax =>
      cases hcs : suffixMax? (cs.map (fun c => c.id)) with
      | none =>
        rw [from_dict_fail_ccounter m d bs cs bmax hb hc hs hcs] at hr
        exact absurd (congrArg Prod.snd hr) (by simp)
      | some cmax =>
        rw [from_dict_success m d bs cs bmax cmax hb hc hs hcs] at hr
        have hr1 : ({ m with
            blocks := dictOfBlocks bs,
            connections := cs,
            block_counter := bmax + 1,
            connection_counter := cmax + 1 } : ModelManager) = r :=
          congrArg Prod.fst hr
        rw [← hr1]
        exact ⟨rfl, rfl, ⟨bmax, hs, rfl⟩, ⟨cmax, rfl, rfl⟩, rfl⟩
  · intro m t x y p
    rfl

/-- Witness for C3 (amended): loading the `block_7` snapshot into the
empty store yields block counter 8, and the next created block is
`block_8`. -/
theorem C3_counter_reseed_witness :
    from_dict { } exDoc7 = (exR7, true)
    ∧ exR7.block_counter = 8
    ∧ (create_block exR7 BlockType.logical 0 0 none).2 = "block_8"
    ∧ (exR7.blocks = dictOfBlocks [exBlock7]
        ∧ exR7.connections = []
        ∧ (∃ bmax, suffixMax? (exR7.blocks.map (fun b => b.id)) = some bmax
            ∧ exR7.block_counter = bmax + 1)
        ∧ (∃ cmax, suffixMax? (([] : List Connection).map (fun c => c.id)) = some cmax
            ∧ exR7.connection_counter = cmax + 1)
        ∧ exR7.port_counter = ({ } : ModelManager).port_counter) :=
  ⟨rfl, rfl,
   (C3_counter_reseed.2 exR7 BlockType.logical 0 0 none).trans (by decide),
   C3_counter_reseed.1 { } exDoc7 [exBlock7] [] exR7 rfl rfl rfl⟩

theorem connLoop_endpoints_present (m : ModelManager) (x y tol : ℚ) :
    ∀ (l : List Connection) (conn : Connection),
      get_connection_at.connLoop m x y tol l = some conn →
      presentBlock m conn.from_block = true ∧ presentBlock m conn.to_block = true := by
  intro l
  induction l with
  | nil =>
    intro conn h
    simp [get_connection_at.connLoop] at h
  | cons c rest ih =>
    intro conn h
    rw [get_connection_at.connLoop] at h
    cases hf : findBlock m c.from_block with
    | none =>
      rw [hf] at h
      exact ih conn h
    | some fromB =>
      rw [hf] at h
      cases ht : findBlock m c.to_block with
      | none =>
        rw [ht] at h
        exact ih conn h
      | some toB =>
        rw [ht] at h
        simp only [] at h
        split at h
        · cases h
          exact ⟨by simp [presentBlock, hf], by simp [presentBlock, ht]⟩
        · exact ih conn h

/-- Claim C4 is refuted on the visibility and nesting queries: on a store
whose only block carries a dangling parent id, `is_block_visible` and
`get_nesting_level` fault (`KeyError`, modelled as `none`) instead of
treating the absent parent as absent. -/
theorem C4_counterexample :
    presentBlock exStoreDangle "block_0" = true
    ∧ run_is_block_visible exStoreDangle "block_0" = none
    ∧ get_nesting_level exStoreDangle "block_0" = none :=
  ⟨rfl, rfl, rfl⟩

/-- Claim C4 (amended): connection hit-testing skips any connection with
an absent endpoint block (a returned hit always has both endpoint blocks
present), and `move_block` and `auto_layout_children` on an absent id
return the store unchanged; but the visibility and nesting-level queries
fault on a dangling block or parent id rather than treating it as
absent. -/
theorem C4_dangling_tolerance :
    (∀ (m : ModelManager) (x y tol : ℚ) (conn : Connection),
      get_connection_at m x y tol = some conn →
      presentBlock m conn.from_block = true ∧ presentBlock m conn.to_block = true)
    ∧ (∀ (m : ModelManager) (bid : String) (dx dy : ℚ) (mc : Bool),
      findBlock m bid = none → move_block m bid dx dy mc = m)
    ∧ (∀ (m : ModelManager) (pid : String),
      findBlock m pid = none → run_auto_layout_children m pid = m) := by
  refine ⟨?_, ?_, ?_⟩
  · intro m x y tol conn h
    exact connLoop_endpoints_present m x y tol m.connections conn h
  · intro m bid dx dy mc h
    simp [move_block, h]
  · intro m pid h
    simp [run_auto_layout_children, auto_layout_children, h]

theorem edge_point_AB : get_block_edge_point exBlockA exBlockB = (100, 50) := by
  norm_num [get_block_edge_point, edgeIntersections, exBlockA, exBlockB,
    List.insertionSort, List.orderedInsert]

theorem edge_point_BA : get_block_edge_point exBlockB exBlockA = (300, 50) := by
  norm_num [get_block_edge_point, edgeIntersections, exBlockA, exBlockB,
    List.insertionSort, List.orderedInsert]

theorem hit_AB : get_connection_at exStoreHit 200 50 10 = some exConnAB := by
  unfold get_connection_at
  rw [show exStoreHit.connections = [exConnAB] from rfl]
  rw [get_connection_at.connLoop]
  rw [show findBlock exStoreHit exConnAB.from_block = some exBlockA from rfl]
  rw [show findBlock exStoreHit exConnAB.to_block = some exBlockB from rfl]
  simp only []
  rw [show get_connection_point exStoreHit exBlockA exBlockB exConnAB.from_port true
        = get_block_edge_point exBlockA exBlockB from rfl]
  rw [show get_connection_point exStoreHit exBlockB exBlockA exConnAB.to_port false
        = get_block_edge_point exBlockB exBlockA from rfl]
  rw [edge_point_AB, edge_point_BA]
  rw [if_pos]
  norm_num [point_to_line_distance_sq]

/-- Witness for C4 (amended): the hit on the concrete two-block store has
both endpoints present, and both no-op cases fire on the empty store. -/
theorem C4_dangling_tolerance_witness :
    (presentBlock exStoreHit exConnAB.from_block = true
      ∧ presentBlock exStoreHit exConnAB.to_block = true)
    ∧ move_block { } "block_0" 1 2 true = ({ } : ModelManager)
    ∧ run_auto_layout_children { } "block_0" = ({ } : ModelManager) :=
  ⟨C4_dangling_tolerance.1 exStoreHit 200 50 10 exConnAB hit_AB,
   C4_dangling_tolerance.2.1 { } "block_0" 1 2 true rfl,
   C4_dangling_tolerance.2.2 { } "block_0" rfl⟩

theorem edgeIntersections_onBoundary (block target : Block) :
    ∀ q ∈ edgeIntersections block target, onBoundary block (q.1, q.2.1) := by
  intro q hq
  simp only [edgeIntersections] at hq
  rcases List.mem_append.mp hq with h | h
  · split_ifs at h with hdx h1 h2 h2
    · rcases List.mem_append.mp h with h3 | h3 <;>
        simp only [List.mem_singleton] at h3 <;> subst h3
      · exact Or.inl ⟨Or.inl rfl, h1.2.2.1, h1.2.2.2⟩
      · exact Or.inl ⟨Or.inr rfl, h2.2.2.1, h2.2.2.2⟩
    · rcases List.mem_append.mp h with h3 | h3
      · simp only [List.mem_singleton] at h3
        subst h3
        exact Or.inl ⟨Or.inl rfl, h1.2.2.1, h1.2.2.2⟩
      · exact absurd h3 (List.not_mem_nil q)
    · rcases List.mem_append.mp h with h3 | h3
      · exact absurd h3 (List.not_mem_nil q)
      · simp only [List.mem_singleton] at h3
        subst h3
        exact Or.inl ⟨Or.inr rfl, h2.2.2.1, h2.2.2.2⟩
    · rcases List.mem_append.mp h with h3 | h3 <;> exact absurd h3 (List.not_mem_nil q)
    · exact absurd h (List.not_mem_nil q)
  · split_ifs at h with hdy h1 h2 h2
    · rcases List.mem_append.mp h with h3 | h3 <;>
        simp only [List.mem_singleton] at h3 <;> subst h3
      · exact Or.inr ⟨Or.inl rfl, h1.2.2.1, h1.2.2.2⟩
      · exact Or.inr ⟨Or.inr rfl, h2.2.2.1, h2.2.2.2⟩
    · rcases List.mem_append.mp h with h3 | h3
      · simp only [List.mem_singleton] at h3
        subst h3
        exact Or.inr ⟨Or.inl rfl, h1.2.2.1, h1.2.2.2⟩
      · exact absurd h3 (List.not_mem_nil q)
    · rcases List.mem_append.mp h with h3 | h3
      · exact absurd h3 (List.not_mem_nil q)
      · simp only [List.mem_singleton] at h3
        subst h3
        exact Or.inr ⟨Or.inr rfl, h2.2.2.1, h2.2.2.2⟩
    · rcases List.mem_append.mp h with h3 | h3 <;> exact absurd h3 (List.not_mem_nil q)
    · exact absurd h (List.not_mem_nil q)

/-- Claim C5 is refuted on overlapping blocks: when the other block's
center (55, 55) lies strictly inside this block's rectangle, the two
centers are distinct yet the resolved endpoint is this block's own center
(50, 50), which does not lie on the rectangle boundary. -/
theorem C5_counterexample :
    get_block_edge_point exBlockA exBlockInner = (50, 50)
    ∧ blockCenter exBlockA = (50, 50)
    ∧ blockCenter exBlockInner = (55, 55)
    ∧ ¬ onBoundary exBlockA (50, 50) := by
  refine ⟨?_, ?_, ?_, ?_⟩
  · norm_num [get_block_edge_point, edgeIntersections, exBlockA, exBlockInner,
      List.insertionSort, List.orderedInsert]
  · norm_num [blockCenter, exBlockA]
  · norm_num [blockCenter, exBlockInner]
  · norm_num [onBoundary, exBlockA]

/-- Claim C5 (amended): when the ray from this block's center toward the
other block's center crosses the rectangle with parameter t in [0,1] and
within the edge spans (so the intersection list is nonempty), the
resolved endpoint is one of those boundary intersections, lies on the
rectangle boundary, and minimizes the squared Euclidean distance to the
other block's center among all valid intersections.  When no valid
intersection exists — in particular whenever the two centers coincide,
but also e.g. when the other center lies inside this rectangle — the
endpoint falls back to this block's own center. -/
theorem C5_edge_point_routing (block target : Block) :
    (edgeIntersections block target = [] →
      get_block_edge_point block target = blockCenter block)
    ∧ (blockCenter block = blockCenter target →
      get_block_edge_point block target = blockCenter block)
    ∧ (edgeIntersections block target ≠ [] →
      onBoundary block (get_block_edge_point block target)
      ∧ (∃ t, ((get_block_edge_point block target).1,
          (get_block_edge_point block target).2, t) ∈ edgeIntersections block target)
      ∧ ∀ q ∈ edgeIntersections block target,
          ((get_block_edge_point block target).1 - (target.x + target.width / 2))^2
            + ((get_block_edge_point block target).2 - (target.y + target.height / 2))^2
          ≤ (q.1 - (target.x + target.width / 2))^2
            + (q.2.1 - (target.y + target.height / 2))^2) := by
  have hempty : edgeIntersections block target = [] →
      get_block_edge_point block target = blockCenter block := by
    intro h
    simp [get_block_edge_point, h, List.insertionSort, blockCenter]
  refine ⟨hempty, ?_, ?_⟩
  · intro hc
    apply hempty
    have hx : target.x + target.width / 2 - (block.x + block.width / 2) = 0 := by
      have := congrArg Prod.fst hc
      simp only [blockCenter] at this
      linarith
    have hy : target.y + target.height / 2 - (block.y + block.height / 2) = 0 := by
      have := congrArg Prod.snd hc
      simp only [blockCenter] at this
      linarith
    simp only [edgeIntersections, hx, hy]
    simp
  · intro hne
    have hperm := List.perm_insertionSort
      (distLe (target.x + target.width / 2) (target.y + target.height / 2))
      (edgeIntersections block target)
    have hsorted := List.sorted_insertionSort
      (distLe (target.x + target.width / 2) (target.y + target.height / 2))
      (edgeIntersections block target)
    cases hs : (edgeIntersections block target).insertionSort
        (distLe (target.x + target.width / 2) (target.y + target.height / 2)) with
    | nil =>
      rw [hs] at hperm
      exact absurd (hperm.symm.eq_nil) hne
    | cons p rest =>
      have hres : get_block_edge_point block target = (p.1, p.2.1) := by
        simp only [get_block_edge_point]
        rw [hs]
      have hpmem : p ∈ edgeIntersections block target := by
        rw [hs] at hperm
        exact hperm.mem_iff.mp (List.mem_cons_self p rest)
      rw [hs] at hsorted
      obtain ⟨hmin, _⟩ := List.pairwise_cons.mp hsorted
      refine ⟨?_, ⟨p.2.2, ?_⟩, ?_⟩
      · rw [hres]
        exact edgeIntersections_onBoundary block target p hpmem
      · rw [hres]
        exact hpmem
      · intro q hq
        rw [hres]
        have hqs : q ∈ p :: rest := by
          rw [hs] at hperm
          exact hperm.mem_iff.mpr hq
        rcases List.mem_cons.mp hqs with h | h
        · subst h
          exact le_refl _
        · exact hmin q h

/-- Witness for C5 (amended): for the blocks at (0,0,100,100) and
(300,0,100,100) the resolved endpoints are (100,50) and (300,50), and the
nonempty-intersection branch of the theorem applies to them. -/
theorem C5_edge_point_routing_witness :
    get_block_edge_point exBlockA exBlockB = (100, 50)
    ∧ get_block_edge_point exBlockB exBlockA = (300, 50)
    ∧ (onBoundary exBlockA (get_block_edge_point exBlockA exBlockB)
      ∧ (∃ t, ((get_block_edge_point exBlockA exBlockB).1,
          (get_block_edge_point exBlockA exBlockB).2, t) ∈ edgeIntersections exBlockA exBlockB)
      ∧ ∀ q ∈ edgeIntersections exBlockA exBlockB,
          ((get_block_edge_point exBlockA exBlockB).1 - (exBlockB.x + exBlockB.width / 2))^2
            + ((get_block_edge_point exBlockA exBlockB).2 - (exBlockB.y + exBlockB.height / 2))^2
          ≤ (q.1 - (exBlockB.x + exBlockB.width / 2))^2
            + (q.2.1 - (exBlockB.y + exBlockB.height / 2))^2) :=
  ⟨edge_point_AB, edge_point_BA,
   (C5_edge_point_routing exBlockA exBlockB).2.2
     (by norm_num [edgeIntersections, exBlockA, exBlockB])⟩

theorem find_updateBlock_other (l : List Block) (id id2 : String) (f : Block → Block)
    (hf : ∀ b : Block, (f b).id = b.id) (hne : id2 ≠ id) :
    (updateBlock l id f).find? (fun b => b.id = id2) =
      l.find? (fun b => b.id = id2) := by
  induction l with
  | nil => rfl
  | cons b l ih =>
    by_cases hb : b.id = id
    · simp only [updateBlock, List.map_cons, if_pos hb]
      rw [List.find?_cons_of_neg, List.find?_cons_of_neg]
      · exact ih
      · simp only [decide_eq_true_eq, hb]
        exact fun h => hne h.symm
      · simp only [decide_eq_true_eq, hf, hb]
        exact fun h => hne h.symm
    · simp only [updateBlock, List.map_cons, if_neg hb]
      by_cases hb2 : b.id = id2
      · rw [List.find?_cons_of_pos, List.find?_cons_of_pos] <;> simp [hb2]
      · rw [List.find?_cons_of_neg, List.find?_cons_of_neg]
        · exact ih
        · simp [hb2]
        · simp [hb2]

theorem findBlock_update_self (m : ModelManager) (id : String) (f : Block → Block)
    (hf : ∀ b : Block, (f b).id = b.id) :
    findBlock { m with blocks := updateBlock m.blocks id f } id =
      (findBlock m id).map f := by
  unfold findBlock
  exact find_updateBlock_self m.blocks id f hf

theorem findBlock_update_other (m : ModelManager) (id id2 : String) (f : Block → Block)
    (hf : ∀ b : Block, (f b).id = b.id) (hne : id2 ≠ id) :
    findBlock { m with blocks := updateBlock m.blocks id f } id2 =
      findBlock m id2 := by
  unfold findBlock
  exact find_updateBlock_other m.blocks id id2 f hf hne

theorem layoutStep_leaf_eq (recur : ModelManager → String → ModelManager)
    (cxp cwp hh sp : ℚ) (macc : ModelManager) (y0 : ℚ) (c : String)
    (hleaf : ∀ cb : Block, findBlock macc c = some cb →
      cb.children = [] ∨ cb.show_content = false) :
    layoutStep recur cxp cwp hh sp (macc, y0) c =
      ({ macc with blocks := updateBlock macc.blocks c
                               (fun cc => { cc with x := cxp, y := y0, width := cwp, height := hh }) },
       y0 + hh + sp) := by
  simp only [layoutStep]
  have hfA := findBlock_update_self macc c
    (fun cc => { cc with x := cxp, y := y0, width := cwp, height := hh }) (fun cc => rfl)
  cases hfc : findBlock macc c with
  | none =>
    rw [hfc] at hfA
    simp only [Option.map_none'] at hfA
    rw [hfA]
  | some c0 =>
    rw [hfc] at hfA
    simp only [Option.map_some'] at hfA
    rw [hfA]
    simp only []
    have hcond : ¬(c0.children ≠ [] ∧ c0.show_content = true) := by
      rcases hleaf c0 hfc with h | h
      · exact fun hc => hc.1 h
      · exact fun hc => by rw [h] at hc; exact Bool.false_ne_true hc.2
    rw [if_neg hcond]

theorem layoutLoop_leaf (recur : ModelManager → String → ModelManager) (cxp cwp hh sp : ℚ) :
    ∀ (l : List String) (macc : ModelManager) (y0 : ℚ),
      l.Nodup →
      (∀ cid ∈ l, ∀ c : Block, findBlock macc cid = some c →
        c.children = [] ∨ c.show_content = false) →
      (∀ id, id ∉ l →
        findBlock (l.foldl (layoutStep recur cxp cwp hh sp) (macc, y0)).1 id
          = findBlock macc id)
      ∧ (∀ (i : Nat) (cid : String), l.get? i = some cid → ∀ c : Block,
          findBlock macc cid = some c →
          findBlock (l.foldl (layoutStep recur cxp cwp hh sp) (macc, y0)).1 cid
            = some { c with
                       x := cxp,
                       y := y0 + (i : ℚ) * (hh + sp),
                       width := cwp,
                       height := hh })
      ∧ (l.foldl (layoutStep recur cxp cwp hh sp) (macc, y0)).1.connections = macc.connections
      ∧ (l.foldl (layoutStep recur cxp cwp hh sp) (macc, y0)).1.block_counter = macc.block_counter
      ∧ (l.foldl (layoutStep recur cxp cwp hh sp) (macc, y0)).1.connection_counter
          = macc.connection_counter
      ∧ (l.foldl (layoutStep recur cxp cwp hh sp) (macc, y0)).1.port_counter
          = macc.port_counter := by
  intro l
  induction l with
  | nil =>
    intro macc y0 _ _
    refine ⟨fun id _ => rfl, fun i cid h => ?_, rfl, rfl, rfl, rfl⟩
    simp at h
  | cons c l ih =>
    intro macc y0 hnd hleaf
    obtain ⟨hc_notmem, hnd'⟩ := List.nodup_cons.mp hnd
    have hstep := layoutStep_leaf_eq recur cxp cwp hh sp macc y0 c
      (fun cb hcb => hleaf c (List.mem_cons_self c l) cb hcb)
    rw [List.foldl_cons, hstep]
    have hupdother : ∀ id2, id2 ≠ c →
        findBlock { macc with blocks := updateBlock macc.blocks c
                                (fun cc => { cc with x := cxp, y := y0, width := cwp, height := hh }) } id2
          = findBlock macc id2 := by
      intro id2 hne
      exact findBlock_update_other macc c id2 _ (fun cc => rfl) hne
    have ihleaf : ∀ cid ∈ l, ∀ cb : Block,
        findBlock { macc with blocks := updateBlock macc.blocks c
                                (fun cc => { cc with x := cxp, y := y0, width := cwp, height := hh }) } cid
          = some cb →
        cb.children = [] ∨ cb.show_content = false := by
      intro cid hcid cb hcb
      have hne : cid ≠ c := fun h => hc_notmem (h ▸ hcid)
      rw [hupdother cid hne] at hcb
      exact hleaf cid (List.mem_cons_of_mem c hcid) cb hcb
    obtain ⟨ih1, ih2, ih3, ih4, ih5, ih6⟩ := ih _ (y0 + hh + sp) hnd' ihleaf
    refine ⟨?_, ?_, ih3, ih4, ih5, ih6⟩
    · intro id hid
      have hidc : id ≠ c := fun h => hid (h ▸ List.mem_cons_self c l)
      have hidl : id ∉ l := fun h => hid (List.mem_cons_of_mem c h)
      rw [ih1 id hidl, hupdother id hidc]
    · intro i cid hget cb hcb
      cases i with
      | zero =>
        have hcc : cid = c := by
          simp only [List.get?] at hget
          exact (Option.some.inj hget).symm
        subst hcc
        rw [ih1 cid hc_notmem]
        have hself := findBlock_update_self macc cid
          (fun cc => { cc with x := cxp, y := y0, width := cwp, height := hh }) (fun cc => rfl)
        rw [hself, hcb]
        simp only [Option.map_some', Nat.cast_zero, zero_mul, add_zero]
      | succ i =>
        simp only [List.get?] at hget
        have hcidc : cid ≠ c := by
          intro h
          subst h
          exact hc_notmem (List.get?_mem hget)
        have hfb1 : findBlock { macc with blocks := updateBlock macc.blocks c
                                                      (fun cc => { cc with x := cxp, y := y0, width := cwp, height := hh }) } cid
            = some cb := by
          rw [hupdother cid hcidc, hcb]
        have := ih2 i cid hget cb hfb1
        have harith : y0 + hh + sp + (i : ℚ) * (hh + sp)
            = y0 + ((i + 1 : Nat) : ℚ) * (hh + sp) := by
          push_cast
          ring
        rw [← harith]
        exact this

theorem auto_layout_eq (fuel : Nat) (m : ModelManager) (pid : String) (parent : Block)
    (hfp : findBlock m pid = some parent)
    (hch : parent.children ≠ []) (hsc : parent.show_content = true)
    (kids : List String)
    (hkids : parent.children.filter (fun cid => presentBlock m cid) = kids)
    (hkne : kids ≠ [])
    (hh : ℚ)
    (hhh : max 60 ((parent.get_content_area.2.2.2
      - parent.child_spacing * ((kids.length : ℚ) - 1)) / (kids.length : ℚ)) = hh)
    (M1 : ModelManager)
    (hM1 : (kids.foldl (layoutStep (auto_layout_children fuel)
        (parent.get_content_area.1 + parent.padding)
        (parent.get_content_area.2.2.1 - 2 * parent.padding) hh parent.child_spacing)
        (m, parent.get_content_area.2.1)).1 = M1)
    (p1 : Block) (hp1 : findBlock M1 pid = some p1)
    (minH : ℚ)
    (hminH : (kids.length : ℚ) * hh + ((kids.length : ℚ) - 1) * parent.child_spacing
      + parent.header_height + parent.port_section_width + 2 * parent.padding = minH) :
    auto_layout_children (fuel+1) m pid =
      (if p1.height < minH then
        { M1 with blocks := updateBlock M1.blocks pid (fun b => { b with height := minH }) }
      else M1) := by
  have h0 : ¬(parent.children = [] ∨ parent.show_content = false) := by
    rintro (h | h)
    · exact hch h
    · rw [hsc] at h
      exact Bool.noConfusion h
  simp only [auto_layout_children]
  rw [hfp]
  simp only []
  rw [if_neg h0, hkids, if_neg hkne, hhh, hM1, hp1]
  simp only []
  rw [hminH]

/-- Claim C6 is refuted on nested compartments: in the chain P → C → G
(P 220×150), the uniform child height for P's single child is
max(60, 85) = 85, but the depth-first recursion into C grows C to height
145 before the call returns, so not every child ends at the uniform
height. -/
theorem C6_counterexample :
    ((findBlock (run_auto_layout_children exStoreNest "block_0") "block_1").map
      (fun b => b.height)) = some 145
    ∧ max 60 ((exBlockP.get_content_area.2.2.2
        - exBlockP.child_spacing * ((1 : ℚ) - 1)) / (1 : ℚ)) = 85
    ∧ (145 : ℚ) ≠ 85 := by
  refine ⟨?_, ?_, by norm_num⟩
  · have hInner := auto_layout_eq 2 exStoreNest1 "block_1" exBlockC85 rfl (by decide) rfl
      ["block_2"] rfl (by decide) 60
      (by norm_num [Block.get_content_area, exBlockC85, exBlockC, max_def])
      exStoreNest2 rfl exBlockC85 rfl 145
      (by norm_num [exBlockC85, exBlockC])
    rw [if_pos (by norm_num [exBlockC85, exBlockC])] at hInner
    have hFold : (List.foldl (layoutStep (auto_layout_children 3)
        (exBlockP.get_content_area.1 + exBlockP.padding)
        (exBlockP.get_content_area.2.2.1 - 2 * exBlockP.padding) 85 exBlockP.child_spacing)
        (exStoreNest, exBlockP.get_content_area.2.1) ["block_1"]).1
        = auto_layout_children 3 exStoreNest1 "block_1" := rfl
    have hM1 := hFold.trans hInner
    have hOuter := auto_layout_eq 3 exStoreNest "block_0" exBlockP rfl (by decide) rfl
      ["block_1"] rfl (by decide) 85
      (by norm_num [Block.get_content_area, exBlockP, max_def])
      _ hM1 exBlockP rfl 170 (by norm_num [exBlockP])
    rw [show run_auto_layout_children exStoreNest "block_0"
          = auto_layout_children (3+1) exStoreNest "block_0" from rfl]
    rw [hOuter]
    rw [if_pos (by norm_num [exBlockP])]
    rfl
  · norm_num [Block.get_content_area, exBlockP]

/-- Claim C6 (amended): with no parent, no children, hidden content, or
no present children the call changes nothing.  For a parent with
present children that themselves have no visible children (so the
depth-first recursion does not fire — a child with visible children may
instead end taller than the uniform value, as the counterexample shows),
every present child is resized to the content width minus two paddings
and the uniform height max(60, (ch − spacing·(n−1))/n), stacked
top-to-bottom from the content-area top with the configured spacing, the
parent's height becomes the maximum of its old height and
stack + header + port-section + 2·padding (never shrinking), and nothing
else changes. -/
theorem C6_layout_leaf_children :
    (∀ (m : ModelManager) (pid : String) (p : Block), findBlock m pid = some p →
      (p.children = [] ∨ p.show_content = false) → run_auto_layout_children m pid = m)
    ∧ (∀ (m : ModelManager) (pid : String) (p : Block), findBlock m pid = some p →
      p.children.filter (fun cid => presentBlock m cid) = [] →
      run_auto_layout_children m pid = m)
    ∧ (∀ (m : ModelManager) (pid : String) (parent : Block),
      findBlock m pid = some parent →
      parent.children ≠ [] → parent.show_content = true →
      ∀ kids, kids = parent.children.filter (fun cid => presentBlock m cid) →
      kids ≠ [] → kids.Nodup → pid ∉ kids →
      (∀ cid ∈ kids, ∀ c : Block, findBlock m cid = some c →
        c.children = [] ∨ c.show_content = false) →
      ∀ hh : ℚ, hh = max 60 ((parent.get_content_area.2.2.2
        - parent.child_spacing * ((kids.length : ℚ) - 1)) / (kids.length : ℚ)) →
      (∀ (i : Nat) (cid : String), kids.get? i = some cid → ∀ c : Block,
        findBlock m cid = some c →
        findBlock (run_auto_layout_children m pid) cid
          = some { c with
                     x := parent.get_content_area.1 + parent.padding,
                     y := parent.get_content_area.2.1 + (i : ℚ) * (hh + parent.child_spacing),
                     width := parent.get_content_area.2.2.1 - 2 * parent.padding,
                     height := hh })
      ∧ findBlock (run_auto_layout_children m pid) pid
          = some { parent with
                     height := max parent.height
                       ((kids.length : ℚ) * hh
                         + ((kids.length : ℚ) - 1) * parent.child_spacing
                         + parent.header_height + parent.port_section_width
                         + 2 * parent.padding) }
      ∧ (∀ id, id ∉ kids → id ≠ pid →
          findBlock (run_auto_layout_children m pid) id = findBlock m id)
      ∧ (run_auto_layout_children m pid).connections = m.connections
      ∧ (run_auto_layout_children m pid).block_counter = m.block_counter
      ∧ (run_auto_layout_children m pid).connection_counter = m.connection_counter
      ∧ (run_auto_layout_children m pid).port_counter = m.port_counter) := by
  refine ⟨?_, ?_, ?_⟩
  · intro m pid p hfp h
    simp only [run_auto_layout_children, auto_layout_children]
    rw [hfp]
    simp only []
    rw [if_pos h]
  · intro m pid p hfp hfilter
    simp only [run_auto_layout_children, auto_layout_children]
    rw [hfp]
    simp only []
    by_cases h0 : p.children = [] ∨ p.show_content = false
    · rw [if_pos h0]
    · rw [if_neg h0, hfilter]
      simp
  · intro m pid parent hfp hch hsc kids hkids hkne hnd hpar hleaf hh hhh
    obtain ⟨h1, h2, h3, h4, h5, h6⟩ := layoutLoop_leaf (auto_layout_children m.blocks.length)
      (parent.get_content_area.1 + parent.padding)
      (parent.get_content_area.2.2.1 - 2 * parent.padding) hh parent.child_spacing
      kids m parent.get_content_area.2.1 hnd hleaf
    have heq := auto_layout_eq m.blocks.length m pid parent hfp hch hsc kids hkids.symm
      hkne hh hhh.symm _ rfl parent (by rw [h1 pid hpar]; exact hfp)
      ((kids.length : ℚ) * hh + ((kids.length : ℚ) - 1) * parent.child_spacing
        + parent.header_height + parent.port_section_width + 2 * parent.padding) rfl
    have hrun : run_auto_layout_children m pid
        = auto_layout_children (m.blocks.length + 1) m pid := rfl
    rw [hrun, heq]
    by_cases hlt : parent.height <
        (kids.length : ℚ) * hh + ((kids.length : ℚ) - 1) * parent.child_spacing
          + parent.header_height + parent.port_section_width + 2 * parent.padding
    · rw [if_pos hlt]
      refine ⟨?_, ?_, ?_, h3, h4, h5, h6⟩
      · intro i cid hget c hc
        have hcidmem : cid ∈ kids := List.get?_mem hget
        have hcidpid : cid ≠ pid := fun h => hpar (h ▸ hcidmem)
        rw [findBlock_update_other _ pid cid _ (by intro b; rfl) hcidpid]
        exact h2 i cid hget c hc
      · rw [findBlock_update_self _ pid _ (by intro b; rfl)]
        rw [h1 pid hpar, hfp]
        rw [max_eq_right (le_of_lt hlt)]
        rfl
      · intro id hidk hidp
        rw [findBlock_update_other _ pid id _ (by intro b; rfl) hidp]
        exact h1 id hidk
    · rw [if_neg hlt]
      refine ⟨?_, ?_, fun id hid _ => h1 id hid, h3, h4, h5, h6⟩
      · intro i cid hget c hc
        exact h2 i cid hget c hc
      · rw [h1 pid hpar, hfp]
        rw [max_eq_left (not_lt.mp hlt)]

/-- Witness for C6 (amended): five leaf children with content height 100
and spacing 8 get the uniform height max(60, 68/5) = 60, the first child
sits at the content-area top, and the parent grows to
5·60 + 4·8 + 40 + 25 + 2·10 = 417. -/
theorem C6_layout_leaf_children_witness :
    findBlock (run_auto_layout_children exStoreLay "block_9") "block_1"
      = some { exLayKid 1 with
                 x := exLayParent.get_content_area.1 + exLayParent.padding,
                 y := exLayParent.get_content_area.2.1
                   + ((0 : Nat) : ℚ) * (60 + exLayParent.child_spacing),
                 width := exLayParent.get_content_area.2.2.1 - 2 * exLayParent.padding,
                 height := 60 }
    ∧ findBlock (run_auto_layout_children exStoreLay "block_9") "block_9"
      = some { exLayParent with
                 height := max exLayParent.height
                   (((["block_1", "block_2", "block_3", "block_4", "block_5"].length : Nat) : ℚ) * 60
                     + (((["block_1", "block_2", "block_3", "block_4", "block_5"].length : Nat) : ℚ) - 1)
                        * exLayParent.child_spacing
                     + exLayParent.header_height + exLayParent.port_section_width
                     + 2 * exLayParent.padding) }
    ∧ max exLayParent.height
        ((5 : ℚ) * 60 + ((5 : ℚ) - 1) * 8 + 40 + 25 + 2 * 10) = 417 := by
  have happ := C6_layout_leaf_children.2.2 exStoreLay "block_9" exLayParent rfl
    (by decide) rfl
    ["block_1", "block_2", "block_3", "block_4", "block_5"] rfl
    (by decide) (by decide) (by decide)
    (by
      intro cid hcid c hc
      fin_cases hcid
      · rw [show findBlock exStoreLay "block_1" = some (exLayKid 1) from rfl] at hc
        injection hc with h2
        subst h2
        exact Or.inl rfl
      · rw [show findBlock exStoreLay "block_2" = some (exLayKid 2) from rfl] at hc
        injection hc with h2
        subst h2
        exact Or.inl rfl
      · rw [show findBlock exStoreLay "block_3" = some (exLayKid 3) from rfl] at hc
        injection hc with h2
        subst h2
        exact Or.inl rfl
      · rw [show findBlock exStoreLay "block_4" = some (exLayKid 4) from rfl] at hc
        injection hc with h2
        subst h2
        exact Or.inl rfl
      · rw [show findBlock exStoreLay "block_5" = some (exLayKid 5) from rfl] at hc
        injection hc with h2
        subst h2
        exact Or.inl rfl)
    60 (by norm_num [Block.get_content_area, exLayParent, max_def])
  exact ⟨happ.1 0 "block_1" rfl (exLayKid 1) rfl, happ.2.1,
    by norm_num [exLayParent, max_def]⟩

theorem findBlock_inv (m : ModelManager) (id : String) (b : Block)
    (h : findBlock m id = some b) : b ∈ m.blocks ∧ b.id = id := by
  refine ⟨List.mem_of_find?_eq_some h, ?_⟩
  have hp := List.find?_some h
  simpa using hp

theorem present_of_find (m : ModelManager) (id : String) (b : Block)
    (h : findBlock m id = some b) : presentBlock m id = true := by
  unfold presentBlock
  rw [h]
  rfl

theorem present_some (m : ModelManager) (id : String)
    (h : presentBlock m id = true) : ∃ b, findBlock m id = some b := by
  unfold presentBlock at h
  cases hfd : findBlock m id with
  | none => rw [hfd] at h; cases h
  | some b => exact ⟨b, rfl⟩

theorem parentOf_inv (m : ModelManager) (d pp : String)
    (h : parentOf m d = some pp) :
    ∃ bd, findBlock m d = some bd ∧ bd.parent_id = some pp := by
  unfold parentOf at h
  cases hfd : findBlock m d with
  | none => rw [hfd] at h; cases h
  | some bd => rw [hfd] at h; exact ⟨bd, rfl, h⟩

theorem present_of_parentOf (m : ModelManager) (d pp : String)
    (h : parentOf m d = some pp) : presentBlock m d = true := by
  obtain ⟨bd, hbd, _⟩ := parentOf_inv m d pp h
  exact present_of_find m d bd hbd

theorem parentOf_of_find (m : ModelManager) (d : String) (bd : Block)
    (hf : findBlock m d = some bd) : parentOf m d = bd.parent_id := by
  unfold parentOf
  rw [hf]

theorem anc_lower_present (m : ModelManager) (a d : String)
    (h : Anc m a d) : presentBlock m d = true := by
  cases h with
  | direct hp => exact present_of_parentOf m d _ hp
  | up hp _ => exact present_of_parentOf m d _ hp

theorem anc_trans (m : ModelManager) (a b c : String)
    (h1 : Anc m a b) (h2 : Anc m b c) : Anc m a c := by
  induction h2 with
  | direct hp => exact Anc.up hp h1
  | up hp _ ih => exact Anc.up hp ih

theorem anc_rank (m : ModelManager) (rank : String → Nat) (hWF : StoreWF m rank)
    (a d : String) (h : Anc m a d) (ha : presentBlock m a = true) :
    rank a < rank d := by
  induction h with
  | direct hp =>
    obtain ⟨bd, hbd, hbdp⟩ := parentOf_inv m _ _ hp
    have := hWF.rankStep _ bd hbd _ hbdp ha
    omega
  | up hp hap ih =>
    obtain ⟨bd, hbd, hbdp⟩ := parentOf_inv m _ _ hp
    have hpp : presentBlock m _ = true := anc_lower_present m _ _ hap
    have hstep := hWF.rankStep _ bd hbd _ hbdp hpp
    omega

theorem anc_linear (m : ModelManager) (a d : String) (h : Anc m a d) :
    ∀ b, Anc m b d → a = b ∨ Anc m a b ∨ Anc m b a := by
  induction h with
  | direct hp =>
    intro b hb
    cases hb with
    | direct hp2 =>
      exact Or.inl (Option.some.inj (hp.symm.trans hp2))
    | up hp2 hb2 =>
      rename_i p
      have he : a = p := Option.some.inj (hp.symm.trans hp2)
      subst he
      exact Or.inr (Or.inr hb2)
  | up hp hap ih =>
    rename_i p d2
    intro b hb
    cases hb with
    | direct hp2 =>
      have he : p = b := Option.some.inj (hp.symm.trans hp2)
      subst he
      exact Or.inr (Or.inl hap)
    | up hp2 hb2 =>
      rename_i p2
      have he : p2 = p := Option.some.inj (hp2.symm.trans hp)
      subst he
      exact ih b hb2

theorem anc_of_child (m : ModelManager) (rank : String → Nat) (hWF : StoreWF m rank)
    (pid : String) (parent : Block) (hp : findBlock m pid = some parent)
    (c : String) (hc : c ∈ parent.children) (hcp : presentBlock m c = true) :
    Anc m pid c := by
  obtain ⟨cb, hcb⟩ := present_some m c hcp
  have hpar := hWF.childParent pid parent hp c hc cb hcb
  exact Anc.direct (by rw [parentOf_of_find m c cb hcb]; exact hpar)

theorem anc_decomp (m : ModelManager) (rank : String → Nat) (hWF : StoreWF m rank)
    (pid : String) (parent : Block) (hp : findBlock m pid = some parent)
    (d : String) (h : Anc m pid d) :
    ∃ c, c ∈ parent.children ∧ presentBlock m c = true ∧ (d = c ∨ Anc m c d) := by
  induction h with
  | direct hpd =>
    obtain ⟨bd, hbd, hbdp⟩ := parentOf_inv m _ _ hpd
    exact ⟨_, hWF.parentChild _ bd hbd _ hbdp parent hp,
      present_of_find m _ bd hbd, Or.inl rfl⟩
  | up hpd hap ih =>
    obtain ⟨c, hc1, hc2, hc3⟩ := ih
    refine ⟨c, hc1, hc2, Or.inr ?_⟩
    rcases hc3 with rfl | hcp
    · exact Anc.direct hpd
    · exact Anc.up hpd hcp

theorem anc_of_parent_eq (m m2 : ModelManager)
    (hpar : ∀ x, parentOf m2 x = parentOf m x)
    (a d : String) (h : Anc m2 a d) : Anc m a d := by
  induction h with
  | direct hp => exact Anc.direct ((hpar _) ▸ hp)
  | up hp _ ih => exact Anc.up ((hpar _) ▸ hp) ih

theorem anc_transport_sub (m m2 : ModelManager)
    (hpar : ∀ x, presentBlock m2 x = true → parentOf m2 x = parentOf m x)
    (a d : String) (h : Anc m2 a d) : Anc m a d := by
  induction h with
  | direct hp =>
    have hd := present_of_parentOf m2 _ _ hp
    rw [hpar _ hd] at hp
    exact Anc.direct hp
  | up hp _ ih =>
    have hd := present_of_parentOf m2 _ _ hp
    rw [hpar _ hd] at hp
    exact Anc.up hp ih

theorem anc_transport_back (m m2 : ModelManager)
    (hpar : ∀ x, presentBlock m2 x = true → parentOf m2 x = parentOf m x)
    (hdown : ∀ x y, presentBlock m x = true → presentBlock m2 x = false →
      Anc m x y → presentBlock m y = true → presentBlock m2 y = false)
    (a d : String) (h : Anc m a d) :
    presentBlock m2 d = true → Anc m2 a d := by
  induction h with
  | direct hp =>
    intro hd
    exact Anc.direct (by rw [hpar _ hd]; exact hp)
  | up hp hap ih =>
    intro hd
    have hpm := present_of_parentOf m _ _ hp
    have hdm : presentBlock m _ = true := present_of_parentOf m _ _ hp
    rcases Bool.eq_false_or_eq_true (presentBlock m2 _) with hb | hb
    · exact Anc.up (by rw [hpar _ hd]; exact hp) (ih hb)
    · have hpresm : presentBlock m _ = true := anc_lower_present m _ _ hap
      have := hdown _ _ hpresm hb (Anc.direct hp) hdm
      rw [hd] at this
      exact Bool.noConfusion this

theorem updateBlock_idmap (l : List Block) (id : String) (f : Block → Block)
    (hf : ∀ b : Block, (f b).id = b.id) :
    (updateBlock l id f).map (fun b => b.id) = l.map (fun b => b.id) := by
  unfold updateBlock
  rw [List.map_map]
  apply List.map_congr_left
  intro b hb
  by_cases h : b.id = id
  · simp [h, hf]
  · simp [h]

theorem movedOn_refl (m : ModelManager) (dx dy : ℚ) :
    MovedOn m m dx dy (fun _ => False) := by
  refine ⟨?_, ?_, ?_, rfl, rfl, rfl, rfl, rfl⟩
  · intro id b hb hS
    exact hS.elim
  · intro id b hb hS
    exact hb
  · intro id hb
    exact hb

theorem movedOn_congr (m m2 : ModelManager) (dx dy : ℚ) (S T : String → Prop)
    (hiff : ∀ e, S e ↔ T e) (h : MovedOn m m2 dx dy S) : MovedOn m m2 dx dy T := by
  refine ⟨?_, ?_, h.absent, h.idsEq, h.connsEq, h.bcEq, h.ccEq, h.pcEq⟩
  · intro id b hb hT
    exact h.moved id b hb ((hiff id).mpr hT)
  · intro id b hb hT
    exact h.kept id b hb (fun hS => hT ((hiff id).mp hS))

theorem movedOn_invert (m m2 : ModelManager) (dx dy : ℚ) (S : String → Prop)
    (h : MovedOn m m2 dx dy S) (id : String) (b : Block)
    (hb : findBlock m2 id = some b) :
    ∃ b0, findBlock m id = some b0 ∧ (b = b0 ∨ b = shiftXY dx dy b0) := by
  cases hfd : findBlock m id with
  | none =>
    rw [h.absent id hfd] at hb
    cases hb
  | some b0 =>
    by_cases hS : S id
    · rw [h.moved id b0 hfd hS] at hb
      exact ⟨b0, rfl, Or.inr (Option.some.inj hb).symm⟩
    · rw [h.kept id b0 hfd hS] at hb
      exact ⟨b0, rfl, Or.inl (Option.some.inj hb).symm⟩

theorem movedOn_present (m m2 : ModelManager) (dx dy : ℚ) (S : String → Prop)
    (h : MovedOn m m2 dx dy S) (id : String) :
    presentBlock m2 id = presentBlock m id := by
  unfold presentBlock
  cases hfd : findBlock m id with
  | none => rw [h.absent id hfd]
  | some b0 =>
    by_cases hS : S id
    · rw [h.moved id b0 hfd hS]
      rfl
    · rw [h.kept id b0 hfd hS]

theorem movedOn_parentOf (m m2 : ModelManager) (dx dy : ℚ) (S : String → Prop)
    (h : MovedOn m m2 dx dy S) (id : String) :
    parentOf m2 id = parentOf m id := by
  unfold parentOf
  cases hfd : findBlock m id with
  | none => rw [h.absent id hfd]
  | some b0 =>
    by_cases hS : S id
    · rw [h.moved id b0 hfd hS]
      rfl
    · rw [h.kept id b0 hfd hS]

theorem movedOn_anc (m m2 : ModelManager) (dx dy : ℚ) (S : String → Prop)
    (h : MovedOn m m2 dx dy S) (a d : String) :
    Anc m2 a d ↔ Anc m a d := by
  constructor
  · exact anc_of_parent_eq m m2 (movedOn_parentOf m m2 dx dy S h) a d
  · exact anc_of_parent_eq m2 m (fun x => (movedOn_parentOf m m2 dx dy S h x).symm) a d

theorem movedOn_update (m macc : ModelManager) (dx dy : ℚ) (S : String → Prop)
    (h : MovedOn m macc dx dy S) (c : String) (cb : Block)
    (hcb : findBlock m c = some cb) (hSc : ¬ S c) :
    MovedOn m { macc with blocks := updateBlock macc.blocks c (shiftXY dx dy) } dx dy
      (fun e => S e ∨ e = c) := by
  refine ⟨?_, ?_, ?_, ?_, h.connsEq, h.bcEq, h.ccEq, h.pcEq⟩
  · intro id b hb hS2
    rcases hS2 with hS | rfl
    · have hne : id ≠ c := fun he => hSc (he ▸ hS)
      rw [findBlock_update_other macc c id (shiftXY dx dy) (fun bb => rfl) hne]
      exact h.moved id b hb hS
    · rw [findBlock_update_self macc id (shiftXY dx dy) (fun bb => rfl)]
      rw [h.kept id b hb hSc]
      rfl
  · intro id b hb hS2
    have hne : id ≠ c := fun he => hS2 (Or.inr he)
    rw [findBlock_update_other macc c id (shiftXY dx dy) (fun bb => rfl) hne]
    exact h.kept id b hb (fun hS => hS2 (Or.inl hS))
  · intro id hb
    have hne : id ≠ c := by
      intro he
      rw [he, hcb] at hb
      cases hb
    rw [findBlock_update_other macc c id (shiftXY dx dy) (fun bb => rfl) hne]
    exact h.absent id hb
  · show (updateBlock macc.blocks c (shiftXY dx dy)).map (fun b => b.id) = _
    rw [updateBlock_idmap macc.blocks c (shiftXY dx dy) (fun bb => rfl)]
    exact h.idsEq

theorem movedOn_trans (m m1 m2 : ModelManager) (dx dy : ℚ) (S1 S2 : String → Prop)
    (h1 : MovedOn m m1 dx dy S1) (h2 : MovedOn m1 m2 dx dy S2)
    (hdisj : ∀ e, S1 e → S2 e → False) :
    MovedOn m m2 dx dy (fun e => S1 e ∨ S2 e) := by
  refine ⟨?_, ?_, ?_, h2.idsEq.trans h1.idsEq, h2.connsEq.trans h1.connsEq,
    h2.bcEq.trans h1.bcEq, h2.ccEq.trans h1.ccEq, h2.pcEq.trans h1.pcEq⟩
  · intro id b hb hS
    by_cases hS1 : S1 id
    · have hm1 := h1.moved id b hb hS1
      exact h2.kept id _ hm1 (fun hS2 => hdisj id hS1 hS2)
    · rcases hS with hS | hS2
      · exact absurd hS hS1
      · have hm1 := h1.kept id b hb hS1
        exact h2.moved id b hm1 hS2
  · intro id b hb hS
    have hn1 : ¬ S1 id := fun hx => hS (Or.inl hx)
    have hn2 : ¬ S2 id := fun hx => hS (Or.inr hx)
    exact h2.kept id b (h1.kept id b hb hn1) hn2
  · intro id hb
    exact h2.absent id (h1.absent id hb)

theorem movedOn_wf (m m2 : ModelManager) (dx dy : ℚ) (S : String → Prop)
    (rank : String → Nat) (h : MovedOn m m2 dx dy S) (hWF : StoreWF m rank) :
    StoreWF m2 rank := by
  have hfields : ∀ id b, findBlock m2 id = some b →
      ∃ b0, findBlock m id = some b0 ∧ b.children = b0.children
        ∧ b.parent_id = b0.parent_id := by
    intro id b hb
    obtain ⟨b0, hb0, hor⟩ := movedOn_invert m m2 dx dy S h id b hb
    rcases hor with he | he
    · exact ⟨b0, hb0, by simp [he], by simp [he]⟩
    · exact ⟨b0, hb0, by simp [he, shiftXY], by simp [he, shiftXY]⟩
  constructor
  · intro id b hb
    obtain ⟨b0, hb0, hch, _⟩ := hfields id b hb
    rw [hch]
    exact hWF.childrenNodup id b0 hb0
  · intro id b hb cid hcid c hc
    obtain ⟨b0, hb0, hch, _⟩ := hfields id b hb
    obtain ⟨c0, hc0, _, hcp⟩ := hfields cid c hc
    rw [hcp]
    exact hWF.childParent id b0 hb0 cid (hch ▸ hcid) c0 hc0
  · intro id b hb pid hpid p hp
    obtain ⟨b0, hb0, _, hbp⟩ := hfields id b hb
    obtain ⟨p0, hp0, hpch, _⟩ := hfields pid p hp
    rw [hpch]
    exact hWF.parentChild id b0 hb0 pid (hbp ▸ hpid) p0 hp0
  · intro id b hb pid hpid hppres
    obtain ⟨b0, hb0, _, hbp⟩ := hfields id b hb
    rw [movedOn_present m m2 dx dy S h pid] at hppres
    exact hWF.rankStep id b0 hb0 pid (hbp ▸ hpid) hppres

theorem moveLoop (rank : String → Nat) (dx dy : ℚ) (fuel : Nat)
    (hrec : ∀ (mm : ModelManager) (c : String),
      StoreWF mm rank → presentBlock mm c = true →
      (∀ e, presentBlock mm e = true → Anc mm c e → rank e ≤ rank c + fuel) →
      MovedOn mm (move_children_recursive fuel mm c dx dy) dx dy
        (fun e => presentBlock mm e = true ∧ Anc mm c e))
    (m : ModelManager) (pid : String) (hWF : StoreWF m rank)
    (hpid : presentBlock m pid = true)
    (hfuel : ∀ e, presentBlock m e = true → Anc m pid e → rank e ≤ rank pid + fuel + 1) :
    ∀ (l : List String), l.Nodup →
      (∀ c, c ∈ l → presentBlock m c = true → parentOf m c = some pid) →
      ∀ (S0 : String → Prop) (macc : ModelManager),
        MovedOn m macc dx dy S0 →
        (∀ e, S0 e → presentBlock m e = true ∧ Anc m pid e) →
        (∀ e, S0 e → ¬ descSetFrom m l e) →
        MovedOn m
          (l.foldl
            (moveStep (fun acc cid => move_children_recursive fuel acc cid dx dy) dx dy)
            macc)
          dx dy (fun e => S0 e ∨ descSetFrom m l e) := by
  intro l
  induction l with
  | nil =>
    intro hnd hl S0 macc hm0 hsub hdisj
    simp only [List.foldl_nil]
    refine movedOn_congr m macc dx dy S0 _ (fun e => ?_) hm0
    constructor
    · exact fun h0 => Or.inl h0
    · intro h0
      rcases h0 with h0 | ⟨c, hc, _⟩
      · exact h0
      · exact absurd hc (List.not_mem_nil c)
  | cons c l ih =>
    intro hnd hl S0 macc hm0 hsub hdisj
    have hndl : l.Nodup := (List.nodup_cons.mp hnd).2
    have hcnl : c ∉ l := (List.nodup_cons.mp hnd).1
    have hll : ∀ x, x ∈ l → presentBlock m x = true → parentOf m x = some pid :=
      fun x hx => hl x (List.mem_cons_of_mem c hx)
    have hpres0 : presentBlock macc c = presentBlock m c :=
      movedOn_present m macc dx dy S0 hm0 c
    by_cases hc : presentBlock m c = true
    · -- the child is present: it is shifted, then recursed into
      have hpoc : parentOf m c = some pid := hl c (List.mem_cons_self c l) hc
      obtain ⟨cb, hcb, hcbp⟩ := parentOf_inv m c pid hpoc
      have hAncc : Anc m pid c := Anc.direct hpoc
      have hrankc : rank c = rank pid + 1 := hWF.rankStep c cb hcb pid hcbp hpid
      have hS0c : ¬ S0 c :=
        fun h0 => hdisj c h0 ⟨c, List.mem_cons_self c l, hc, Or.inl rfl⟩
      have hc' : presentBlock macc c = true := by rw [hpres0]; exact hc
      obtain ⟨macc1, hmacc1⟩ :
          ∃ x, x = { macc with blocks := updateBlock macc.blocks c (shiftXY dx dy) } :=
        ⟨_, rfl⟩
      have hstep :
          moveStep (fun acc cid => move_children_recursive fuel acc cid dx dy) dx dy macc c
            = move_children_recursive fuel macc1 c dx dy := by
        rw [hmacc1]
        unfold moveStep
        rw [if_pos hc']
      have hm1 : MovedOn m macc1 dx dy (fun e => S0 e ∨ e = c) := by
        rw [hmacc1]
        exact movedOn_update m macc dx dy S0 hm0 c cb hcb hS0c
      have hWF1 : StoreWF macc1 rank := movedOn_wf m macc1 dx dy _ rank hm1 hWF
      have hpres1 : ∀ e, presentBlock macc1 e = presentBlock m e :=
        movedOn_present m macc1 dx dy _ hm1
      have hanc1 : ∀ a e, Anc macc1 a e ↔ Anc m a e :=
        movedOn_anc m macc1 dx dy _ hm1
      have hfuel1 : ∀ e, presentBlock macc1 e = true → Anc macc1 c e →
          rank e ≤ rank c + fuel := by
        intro e he hae
        rw [hpres1 e] at he
        rw [hanc1 c e] at hae
        have hde := hfuel e he (anc_trans m pid c e hAncc hae)
        omega
      have hc1 : presentBlock macc1 c = true := by rw [hpres1]; exact hc
      have hrec1 := hrec macc1 c hWF1 hc1 hfuel1
      have hrec2 : MovedOn macc1 (move_children_recursive fuel macc1 c dx dy) dx dy
          (fun e => presentBlock m e = true ∧ Anc m c e) := by
        refine movedOn_congr macc1 _ dx dy _ _ (fun e => ?_) hrec1
        rw [hpres1 e, hanc1 c e]
      have hdisj2 : ∀ e, (S0 e ∨ e = c) →
          (presentBlock m e = true ∧ Anc m c e) → False := by
        intro e h01 hda
        rcases h01 with h0 | rfl
        · exact hdisj e h0 ⟨c, List.mem_cons_self c l, hc, Or.inr hda.2⟩
        · have := anc_rank m rank hWF e e hda.2 hc
          omega
      have hm2 := movedOn_trans m macc1 _ dx dy _ _ hm1 hrec2 hdisj2
      have hsub2 : ∀ e, ((S0 e ∨ e = c) ∨ (presentBlock m e = true ∧ Anc m c e)) →
          presentBlock m e = true ∧ Anc m pid e := by
        intro e hx
        rcases hx with (h0 | rfl) | hda
        · exact hsub e h0
        · exact ⟨hc, hAncc⟩
        · exact ⟨hda.1, anc_trans m pid c e hAncc hda.2⟩
      have hdisj3 : ∀ e, ((S0 e ∨ e = c) ∨ (presentBlock m e = true ∧ Anc m c e)) →
          ¬ descSetFrom m l e := by
        intro e hx hd
        obtain ⟨c2, hc2, hp2, ho2⟩ := hd
        have hpo2 : parentOf m c2 = some pid := hll c2 hc2 hp2
        obtain ⟨cb2, hcb2, hcbp2⟩ := parentOf_inv m c2 pid hpo2
        have hrank2 : rank c2 = rank pid + 1 := hWF.rankStep c2 cb2 hcb2 pid hcbp2 hpid
        rcases hx with (h0 | heq) | hda
        · exact hdisj e h0 ⟨c2, List.mem_cons_of_mem c hc2, hp2, ho2⟩
        · rcases ho2 with heq2 | ha2
          · refine hcnl ?_
            rw [heq.symm.trans heq2]
            exact hc2
          · have ha2' : Anc m c2 c := heq ▸ ha2
            have := anc_rank m rank hWF c2 c ha2' hp2
            omega
        · rcases ho2 with heq | ha2
          · have h1 := anc_rank m rank hWF c e hda.2 hc
            rw [heq] at h1
            omega
          · rcases anc_linear m c e hda.2 c2 ha2 with heq | hcc2 | hc2c
            · exact hcnl (heq.symm ▸ hc2)
            · have := anc_rank m rank hWF c c2 hcc2 hc
              omega
            · have := anc_rank m rank hWF c2 c hc2c hp2
              omega
      have hih := ih hndl hll _ _ hm2 hsub2 hdisj3
      rw [List.foldl_cons, hstep]
      refine movedOn_congr m _ dx dy _ _ (fun e => ?_) hih
      constructor
      · intro hx
        rcases hx with ((h0 | heq) | hda) | ⟨c2, hc2, hp2, ho2⟩
        · exact Or.inl h0
        · exact Or.inr ⟨c, List.mem_cons_self c l, hc, Or.inl heq⟩
        · exact Or.inr ⟨c, List.mem_cons_self c l, hc, Or.inr hda.2⟩
        · exact Or.inr ⟨c2, List.mem_cons_of_mem c hc2, hp2, ho2⟩
      · intro hx
        rcases hx with h0 | ⟨c2, hc2, hp2, ho2⟩
        · exact Or.inl (Or.inl (Or.inl h0))
        · rcases List.mem_cons.mp hc2 with heq | hc2l
          · rcases ho2 with heq2 | ha2
            · exact Or.inl (Or.inl (Or.inr (heq2.trans heq)))
            · refine Or.inl (Or.inr ⟨anc_lower_present m c2 e ha2, ?_⟩)
              rw [heq] at ha2
              exact ha2
          · exact Or.inr ⟨c2, hc2l, hp2, ho2⟩
    · -- the child is absent: the loop step is a no-op
      have hc' : presentBlock macc c = false := by
        rw [hpres0]
        cases hval : presentBlock m c
        · rfl
        · exact absurd hval hc
      have hstep :
          moveStep (fun acc cid => move_children_recursive fuel acc cid dx dy) dx dy macc c
            = macc := by
        unfold moveStep
        rw [hc']
        simp
      rw [List.foldl_cons, hstep]
      have hdisj4 : ∀ e, S0 e → ¬ descSetFrom m l e := by
        intro e h0 hd
        obtain ⟨c2, hc2, hp2, ho2⟩ := hd
        exact hdisj e h0 ⟨c2, List.mem_cons_of_mem c hc2, hp2, ho2⟩
      have hih := ih hndl hll S0 macc hm0 hsub hdisj4
      refine movedOn_congr m _ dx dy _ _ (fun e => ?_) hih
      constructor
      · intro hx
        rcases hx with h0 | ⟨c2, hc2, hp2, ho2⟩
        · exact Or.inl h0
        · exact Or.inr ⟨c2, List.mem_cons_of_mem c hc2, hp2, ho2⟩
      · intro hx
        rcases hx with h0 | ⟨c2, hc2, hp2, ho2⟩
        · exact Or.inl h0
        · rcases List.mem_cons.mp hc2 with heq | hc2l
          · rw [heq] at hp2
            exact absurd hp2 hc
          · exact Or.inr ⟨c2, hc2l, hp2, ho2⟩

theorem moveRec_spec (rank : String → Nat) (dx dy : ℚ) (fuel : Nat) :
    ∀ (m : ModelManager) (pid : String),
      StoreWF m rank → presentBlock m pid = true →
      (∀ e, presentBlock m e = true → Anc m pid e → rank e ≤ rank pid + fuel) →
      MovedOn m (move_children_recursive fuel m pid dx dy) dx dy
        (fun e => presentBlock m e = true ∧ Anc m pid e) := by
  induction fuel with
  | zero =>
    intro m pid hWF hpid hfuel
    rw [show move_children_recursive 0 m pid dx dy = m from rfl]
    refine movedOn_congr m m dx dy (fun _ => False) _ (fun e => ?_) (movedOn_refl m dx dy)
    constructor
    · exact fun h0 => h0.elim
    · intro hx
      have h1 := hfuel e hx.1 hx.2
      have h2 := anc_rank m rank hWF pid e hx.2 hpid
      omega
  | succ fuel ih =>
    intro m pid hWF hpid hfuel
    obtain ⟨parent, hp⟩ := present_some m pid hpid
    have hunf : move_children_recursive (fuel+1) m pid dx dy =
        parent.children.foldl
          (moveStep (fun acc cid => move_children_recursive fuel acc cid dx dy) dx dy)
          m := by
      simp only [move_children_recursive, hp]
    rw [hunf]
    have hnd : parent.children.Nodup := hWF.childrenNodup pid parent hp
    have hl : ∀ c, c ∈ parent.children → presentBlock m c = true →
        parentOf m c = some pid := by
      intro c hc hcp
      obtain ⟨cb, hcb⟩ := present_some m c hcp
      rw [parentOf_of_find m c cb hcb]
      exact hWF.childParent pid parent hp c hc cb hcb
    have hfuel' : ∀ e, presentBlock m e = true → Anc m pid e →
        rank e ≤ rank pid + fuel + 1 := by
      intro e he ha
      have := hfuel e he ha
      omega
    have hloop := moveLoop rank dx dy fuel ih m pid hWF hpid hfuel' parent.children hnd hl
      (fun _ => False) m (movedOn_refl m dx dy) (fun e h0 => h0.elim) (fun e h0 => h0.elim)
    refine movedOn_congr m _ dx dy _ _ (fun e => ?_) hloop
    constructor
    · intro hx
      rcases hx with h0 | ⟨c2, hc2, hp2, ho2⟩
      · exact h0.elim
      · rcases ho2 with heq | ha2
        · rw [heq]
          exact ⟨hp2, anc_of_child m rank hWF pid parent hp c2 hc2 hp2⟩
        · exact ⟨anc_lower_present m c2 e ha2,
            anc_trans m pid c2 e (anc_of_child m rank hWF pid parent hp c2 hc2 hp2) ha2⟩
    · intro hx
      obtain ⟨c2, hc2, hp2, ho2⟩ := anc_decomp m rank hWF pid parent hp e hx.2
      exact Or.inr ⟨c2, hc2, hp2, ho2⟩

/-- Claim C7: on a well-formed store, for every present block B and every
(dx, dy), move_block with propagation shifts the (x, y) of B and of every
present descendant of B by exactly (dx, dy) and leaves every other block's
record, every other field (shiftXY changes only x and y), the connections
and the counters unchanged; with propagation disabled only B is shifted
and every other block is untouched. -/
theorem C7_move_propagation (m : ModelManager) (rank : String → Nat) (B : String)
    (bB : Block) (dx dy : ℚ) (hWF : StoreWF m rank) (hB : findBlock m B = some bB)
    (hrb : ∀ id, presentBlock m id = true → rank id < m.blocks.length) :
    ((∀ id b, findBlock m id = some b → (id = B ∨ Anc m B id) →
        findBlock (move_block m B dx dy true) id = some (shiftXY dx dy b))
    ∧ (∀ id b, findBlock m id = some b → ¬ (id = B ∨ Anc m B id) →
        findBlock (move_block m B dx dy true) id = some b)
    ∧ (∀ id, findBlock m id = none → findBlock (move_block m B dx dy true) id = none)
    ∧ (move_block m B dx dy true).connections = m.connections
    ∧ (move_block m B dx dy true).block_counter = m.block_counter
    ∧ (move_block m B dx dy true).connection_counter = m.connection_counter
    ∧ (move_block m B dx dy true).port_counter = m.port_counter)
    ∧ ((findBlock (move_block m B dx dy false) B = some (shiftXY dx dy bB))
    ∧ (∀ id b, findBlock m id = some b → id ≠ B →
        findBlock (move_block m B dx dy false) id = some b)
    ∧ (∀ id, findBlock m id = none → findBlock (move_block m B dx dy false) id = none)
    ∧ (move_block m B dx dy false).connections = m.connections
    ∧ (move_block m B dx dy false).block_counter = m.block_counter
    ∧ (move_block m B dx dy false).connection_counter = m.connection_counter
    ∧ (move_block m B dx dy false).port_counter = m.port_counter) := by
  have hBp : presentBlock m B = true := present_of_find m B bB hB
  have hm1base : MovedOn m { m with blocks := updateBlock m.blocks B (shiftXY dx dy) } dx dy
      (fun e => False ∨ e = B) :=
    movedOn_update m m dx dy (fun _ => False) (movedOn_refl m dx dy) B bB hB (fun h => h)
  have hmbt : move_block m B dx dy true =
      move_children_recursive
        (({ m with blocks := updateBlock m.blocks B (shiftXY dx dy) }).blocks.length + 1)
        { m with blocks := updateBlock m.blocks B (shiftXY dx dy) } B dx dy := by
    simp [move_block, hB]
  have hmbf : move_block m B dx dy false =
      { m with blocks := updateBlock m.blocks B (shiftXY dx dy) } := by
    simp [move_block, hB]
  obtain ⟨m1, hm1e⟩ :
      ∃ x, x = { m with blocks := updateBlock m.blocks B (shiftXY dx dy) } := ⟨_, rfl⟩
  rw [← hm1e] at hmbt hmbf hm1base
  have hWF1 := movedOn_wf m m1 dx dy _ rank hm1base hWF
  have hpres1 := movedOn_present m m1 dx dy _ hm1base
  have hanc1 := movedOn_anc m m1 dx dy _ hm1base
  have hlen : m1.blocks.length = m.blocks.length := by
    rw [hm1e]
    simp [updateBlock]
  have hfuelB : ∀ e, presentBlock m1 e = true → Anc m1 B e →
      rank e ≤ rank B + (m1.blocks.length + 1) := by
    intro e he ha
    rw [hpres1 e] at he
    have := hrb e he
    rw [hlen]
    omega
  have hBp1 : presentBlock m1 B = true := by rw [hpres1]; exact hBp
  have hrec := moveRec_spec rank dx dy (m1.blocks.length + 1) m1 B hWF1 hBp1 hfuelB
  have hrec2 : MovedOn m1 (move_children_recursive (m1.blocks.length + 1) m1 B dx dy) dx dy
      (fun e => presentBlock m e = true ∧ Anc m B e) := by
    refine movedOn_congr m1 _ dx dy _ _ (fun e => ?_) hrec
    rw [hpres1 e, hanc1 B e]
  have hdisjB : ∀ e, (False ∨ e = B) → (presentBlock m e = true ∧ Anc m B e) → False := by
    intro e h0 hda
    rcases h0 with h0 | heq
    · exact h0
    · have h1 := anc_rank m rank hWF B e hda.2 hBp
      rw [heq] at h1
      omega
  have htr := movedOn_trans m m1 _ dx dy _ _ hm1base hrec2 hdisjB
  rw [← hmbt] at htr
  constructor
  · refine ⟨?_, ?_, htr.absent, htr.connsEq, htr.bcEq, htr.ccEq, htr.pcEq⟩
    · intro id b hb hor
      refine htr.moved id b hb ?_
      rcases hor with heq | ha
      · exact Or.inl (Or.inr heq)
      · exact Or.inr ⟨present_of_find m id b hb, ha⟩
    · intro id b hb hor
      refine htr.kept id b hb ?_
      intro hx
      rcases hx with (h0 | heq) | hda
      · exact h0
      · exact hor (Or.inl heq)
      · exact hor (Or.inr hda.2)
  · have hfb : MovedOn m (move_block m B dx dy false) dx dy (fun e => False ∨ e = B) := by
      rw [hmbf]
      exact hm1base
    refine ⟨?_, ?_, hfb.absent, hfb.connsEq, hfb.bcEq, hfb.ccEq, hfb.pcEq⟩
    · exact hfb.moved B bB hB (Or.inr rfl)
    · intro id b hb hne
      exact hfb.kept id b hb (fun hx => hx.elim (fun h0 => h0) (fun he => hne he))

theorem findNest_inv (id : String) (b : Block) (h : findBlock exStoreNest id = some b) :
    (id = "block_0" ∧ b = exBlockP) ∨ (id = "block_1" ∧ b = exBlockC)
      ∨ (id = "block_2" ∧ b = exBlockG) := by
  obtain ⟨hm, hid⟩ := findBlock_inv _ _ _ h
  have hm2 : b ∈ [exBlockP, exBlockC, exBlockG] := hm
  simp only [List.mem_cons, List.not_mem_nil, or_false] at hm2
  rcases hm2 with rfl | rfl | rfl
  · exact Or.inl ⟨hid.symm, rfl⟩
  · exact Or.inr (Or.inl ⟨hid.symm, rfl⟩)
  · exact Or.inr (Or.inr ⟨hid.symm, rfl⟩)

theorem wf_nest : StoreWF exStoreNest exRankNest := by
  constructor
  · intro id b h
    rcases findNest_inv id b h with ⟨heq, rfl⟩ | ⟨heq, rfl⟩ | ⟨heq, rfl⟩ <;> decide
  · intro id b h cid hcid c hc
    rcases findNest_inv id b h with ⟨heq, rfl⟩ | ⟨heq, rfl⟩ | ⟨heq, rfl⟩ <;> subst heq
    · have hcid1 : cid = "block_1" := by simpa [exBlockP] using hcid
      subst hcid1
      have hfc : findBlock exStoreNest "block_1" = some exBlockC := by decide
      rw [hfc] at hc
      rw [(Option.some.inj hc).symm]
      decide
    · have hcid2 : cid = "block_2" := by simpa [exBlockC] using hcid
      subst hcid2
      have hfg : findBlock exStoreNest "block_2" = some exBlockG := by decide
      rw [hfg] at hc
      rw [(Option.some.inj hc).symm]
      decide
    · exact absurd hcid (by simp [exBlockG])
  · intro id b h pid hpid p hp
    rcases findNest_inv id b h with ⟨heq, rfl⟩ | ⟨heq, rfl⟩ | ⟨heq, rfl⟩ <;> subst heq
    · exact absurd hpid (by simp [exBlockP])
    · have hpid0 : pid = "block_0" := by
        have hx : some "block_0" = some pid := hpid
        exact (Option.some.inj hx).symm
      subst hpid0
      have hfp : findBlock exStoreNest "block_0" = some exBlockP := by decide
      rw [hfp] at hp
      rw [(Option.some.inj hp).symm]
      decide
    · have hpid1 : pid = "block_1" := by
        have hx : some "block_1" = some pid := hpid
        exact (Option.some.inj hx).symm
      subst hpid1
      have hfc : findBlock exStoreNest "block_1" = some exBlockC := by decide
      rw [hfc] at hp
      rw [(Option.some.inj hp).symm]
      decide
  · intro id b h pid hpid hpp
    rcases findNest_inv id b h with ⟨heq, rfl⟩ | ⟨heq, rfl⟩ | ⟨heq, rfl⟩ <;> subst heq
    · exact absurd hpid (by simp [exBlockP])
    · have hpid0 : pid = "block_0" := by
        have hx : some "block_0" = some pid := hpid
        exact (Option.some.inj hx).symm
      subst hpid0
      decide
    · have hpid1 : pid = "block_1" := by
        have hx : some "block_1" = some pid := hpid
        exact (Option.some.inj hx).symm
      subst hpid1
      decide

theorem rank_nest_bound :
    ∀ id, presentBlock exStoreNest id = true → exRankNest id < exStoreNest.blocks.length := by
  intro id h
  obtain ⟨b, hb⟩ := present_some _ _ h
  rcases findNest_inv id b hb with ⟨heq, _⟩ | ⟨heq, _⟩ | ⟨heq, _⟩ <;> subst heq <;> decide

/-- Witness for Claim C7: moving the middle block of the P → C → G chain
by (3, 4) with propagation shifts the grandchild too and leaves the root
untouched; without propagation the grandchild stays in place. -/
theorem C7_move_propagation_witness :
    findBlock (move_block exStoreNest "block_1" 3 4 true) "block_2"
        = some (shiftXY 3 4 exBlockG)
    ∧ findBlock (move_block exStoreNest "block_1" 3 4 true) "block_0" = some exBlockP
    ∧ findBlock (move_block exStoreNest "block_1" 3 4 false) "block_2" = some exBlockG := by
  have h := C7_move_propagation exStoreNest exRankNest "block_1" exBlockC 3 4
    wf_nest (by decide) rank_nest_bound
  refine ⟨?_, ?_, ?_⟩
  · refine h.1.1 "block_2" exBlockG (by decide) (Or.inr (Anc.direct ?_))
    decide
  · refine h.1.2.1 "block_0" exBlockP (by decide) ?_
    intro hx
    rcases hx with heq | ha
    · exact absurd heq (by decide)
    · have := anc_rank exStoreNest exRankNest wf_nest "block_1" "block_0" ha (by decide)
      revert this
      decide
  · exact h.2.2.1 "block_2" exBlockG (by decide) (by decide)

theorem find_filter_other (l : List Block) (i j : String) (b : Block) (hne : i ≠ j)
    (h : l.find? (fun x => x.id = i) = some b) :
    (l.filter (fun x => x.id ≠ j)).find? (fun x => x.id = i) = some b := by
  induction l with
  | nil => cases h
  | cons a l ih =>
    by_cases ha : a.id = i
    · rw [List.find?_cons_of_pos l (by simp [ha])] at h
      have hb := Option.some.inj h
      rw [List.filter_cons_of_pos (by simp [ha, hne])]
      rw [List.find?_cons_of_pos _ (by simp [ha])]
      rw [hb]
    · rw [List.find?_cons_of_neg l (by simp [ha])] at h
      by_cases haj : a.id = j
      · rw [List.filter_cons_of_neg (by simp [haj])]
        exact ih h
      · rw [List.filter_cons_of_pos (by simp [haj])]
        rw [List.find?_cons_of_neg _ (by simp [ha])]
        exact ih h

theorem find_filter_self (l : List Block) (j : String) :
    (l.filter (fun x => x.id ≠ j)).find? (fun x => x.id = j) = none := by
  apply List.find?_eq_none.mpr
  intro x hx
  have hmem := List.of_mem_filter hx
  simp only [decide_eq_true_eq] at hmem ⊢
  exact hmem

theorem find_none_filter (l : List Block) (i j : String)
    (h : l.find? (fun x => x.id = i) = none) :
    (l.filter (fun x => x.id ≠ j)).find? (fun x => x.id = i) = none := by
  apply List.find?_eq_none.mpr
  intro x hx
  exact List.find?_eq_none.mp h x (List.mem_of_mem_filter hx)

theorem delete_noop (fuel : Nat) (mm : ModelManager) (c : String)
    (h : findBlock mm c = none) : delete_block fuel mm c = mm := by
  cases fuel with
  | zero => rfl
  | succ fuel => simp only [delete_block, h]

theorem delInv_notRem (m : ModelManager) (did : String) (bd : Block)
    (macc : ModelManager) (Rem : String → Prop)
    (hinv : DelLoopInv m did bd macc Rem) (id : String) (b : Block)
    (hb : findBlock macc id = some b) : ¬ Rem id := by
  intro hr
  rw [hinv.removed id hr] at hb
  cases hb

theorem delInv_invert (m : ModelManager) (did : String) (bd : Block)
    (macc : ModelManager) (Rem : String → Prop)
    (hinv : DelLoopInv m did bd macc Rem) (hdid : findBlock m did = some bd)
    (id : String) (b : Block) (hb : findBlock macc id = some b) :
    ¬ Rem id ∧ ∃ b0 ch, findBlock m id = some b0 ∧ b = { b0 with children := ch }
      ∧ ch.Sublist b0.children ∧ (∀ e, e ∈ b0.children → ¬ Rem e → e ∈ ch) := by
  have hnr : ¬ Rem id := delInv_notRem m did bd macc Rem hinv id b hb
  refine ⟨hnr, ?_⟩
  by_cases hd : id = did
  · subst hd
    obtain ⟨ch, h3a, h3b, h3c⟩ := hinv.root
    rw [h3a] at hb
    exact ⟨bd, ch, hdid, (Option.some.inj hb).symm, h3b, h3c⟩
  · cases hm : findBlock m id with
    | none =>
      rw [hinv.absent id hm] at hb
      cases hb
    | some b0 =>
      have hk := hinv.kept id b0 hm hnr hd
      rw [hk] at hb
      refine ⟨b0, b0.children, rfl, ?_, List.Sublist.refl _, fun e he _ => he⟩
      rw [(Option.some.inj hb).symm]

theorem delInv_present (m : ModelManager) (did : String) (bd : Block)
    (macc : ModelManager) (Rem : String → Prop)
    (hinv : DelLoopInv m did bd macc Rem) (hdid : findBlock m did = some bd)
    (id : String) :
    presentBlock macc id = true ↔ (presentBlock m id = true ∧ ¬ Rem id) := by
  constructor
  · intro h
    obtain ⟨b, hb⟩ := present_some macc id h
    obtain ⟨hnr, b0, ch, hb0, _⟩ := delInv_invert m did bd macc Rem hinv hdid id b hb
    exact ⟨present_of_find m id b0 hb0, hnr⟩
  · intro ⟨hp, hnr⟩
    obtain ⟨b0, hb0⟩ := present_some m id hp
    by_cases hd : id = did
    · subst hd
      obtain ⟨ch, h3a, _, _⟩ := hinv.root
      exact present_of_find macc _ _ h3a
    · exact present_of_find macc id b0 (hinv.kept id b0 hb0 hnr hd)

theorem delInv_parentOf (m : ModelManager) (did : String) (bd : Block)
    (macc : ModelManager) (Rem : String → Prop)
    (hinv : DelLoopInv m did bd macc Rem) (hdid : findBlock m did = some bd)
    (id : String) (h : presentBlock macc id = true) :
    parentOf macc id = parentOf m id := by
  obtain ⟨b, hb⟩ := present_some macc id h
  obtain ⟨hnr, b0, ch, hb0, hbe, _⟩ := delInv_invert m did bd macc Rem hinv hdid id b hb
  rw [parentOf_of_find macc id b hb, parentOf_of_find m id b0 hb0, hbe]

theorem delInv_wf (m : ModelManager) (rank : String → Nat) (did : String) (bd : Block)
    (macc : ModelManager) (Rem : String → Prop) (hWF : StoreWF m rank)
    (hinv : DelLoopInv m did bd macc Rem) (hdid : findBlock m did = some bd) :
    StoreWF macc rank := by
  constructor
  · intro id b hb
    obtain ⟨hnr, b0, ch, hb0, hbe, hsub, _⟩ :=
      delInv_invert m did bd macc Rem hinv hdid id b hb
    rw [hbe]
    exact (hWF.childrenNodup id b0 hb0).sublist hsub
  · intro id b hb cid hcid c hc
    obtain ⟨hnr, b0, ch, hb0, hbe, hsub, _⟩ :=
      delInv_invert m did bd macc Rem hinv hdid id b hb
    obtain ⟨hnrc, c0, chc, hc0, hce, _, _⟩ :=
      delInv_invert m did bd macc Rem hinv hdid cid c hc
    rw [hce]
    show c0.parent_id = some id
    refine hWF.childParent id b0 hb0 cid ?_ c0 hc0
    rw [hbe] at hcid
    exact hsub.subset hcid
  · intro id b hb pid hpid p hp
    obtain ⟨hnr, b0, ch, hb0, hbe, hsub, _⟩ :=
      delInv_invert m did bd macc Rem hinv hdid id b hb
    obtain ⟨hnrp, p0, chp, hp0, hpe, _, hretp⟩ :=
      delInv_invert m did bd macc Rem hinv hdid pid p hp
    rw [hbe] at hpid
    have hmm : id ∈ p0.children := hWF.parentChild id b0 hb0 pid hpid p0 hp0
    rw [hpe]
    exact hretp id hmm hnr
  · intro id b hb pid hpid hpp
    obtain ⟨hnr, b0, ch, hb0, hbe, hsub, _⟩ :=
      delInv_invert m did bd macc Rem hinv hdid id b hb
    rw [hbe] at hpid
    have hppm : presentBlock m pid = true :=
      ((delInv_present m did bd macc Rem hinv hdid pid).mp hpp).1
    exact hWF.rankStep id b0 hb0 pid hpid hppm

theorem delInv_congr (m : ModelManager) (did : String) (bd : Block)
    (macc : ModelManager) (R R2 : String → Prop) (hiff : ∀ e, R e ↔ R2 e)
    (hinv : DelLoopInv m did bd macc R) : DelLoopInv m did bd macc R2 := by
  refine ⟨?_, ?_, ?_, hinv.absent, ?_, hinv.bcEq, hinv.ccEq, hinv.pcEq⟩
  · intro id hr
    exact hinv.removed id ((hiff id).mpr hr)
  · intro id b hb hnr hd
    exact hinv.kept id b hb (fun hr => hnr ((hiff id).mp hr)) hd
  · obtain ⟨ch, h3a, h3b, h3c⟩ := hinv.root
    exact ⟨ch, h3a, h3b, fun e he hnr => h3c e he (fun hr => hnr ((hiff e).mp hr))⟩
  · intro conn
    rw [hinv.conns conn]
    constructor
    · intro ⟨h1, h2, h3⟩
      exact ⟨h1, fun hr => h2 ((hiff _).mpr hr), fun hr => h3 ((hiff _).mpr hr)⟩
    · intro ⟨h1, h2, h3⟩
      exact ⟨h1, fun hr => h2 ((hiff _).mp hr), fun hr => h3 ((hiff _).mp hr)⟩

theorem delete_tail_spec (m mm2 : ModelManager) (did : String) (bd : Block)
    (hdidp : presentBlock m did = true)
    (hgone2 : ∀ e, presentBlock m e = true → Anc m did e → findBlock mm2 e = none)
    (hkept2 : ∀ id b, findBlock m id = some b →
      ¬ (presentBlock m id = true ∧ (id = did ∨ Anc m did id)) →
      findBlock mm2 id = some (if bd.parent_id = some id
        then { b with children := b.children.erase did } else b))
    (habs2 : ∀ id, findBlock m id = none → findBlock mm2 id = none)
    (hconns2 : ∀ conn : Connection, conn ∈ mm2.connections ↔
      (conn ∈ m.connections
        ∧ ¬ (presentBlock m conn.from_block = true ∧ Anc m did conn.from_block)
        ∧ ¬ (presentBlock m conn.to_block = true ∧ Anc m did conn.to_block)))
    (hbc2 : mm2.block_counter = m.block_counter)
    (hcc2 : mm2.connection_counter = m.connection_counter)
    (hpc2 : mm2.port_counter = m.port_counter) :
    DeleteSpec m did bd
      { mm2 with
        blocks := mm2.blocks.filter (fun b => b.id ≠ did),
        connections := mm2.connections.filter
          (fun c => c.from_block ≠ did ∧ c.to_block ≠ did) }
      (fun e => presentBlock m e = true ∧ (e = did ∨ Anc m did e)) := by
  refine ⟨?_, ?_, ?_, ?_, hbc2, hcc2, hpc2⟩
  · intro e he
    obtain ⟨hp, hor⟩ := he
    show (mm2.blocks.filter (fun b => b.id ≠ did)).find? (fun b => b.id = e) = none
    by_cases heq : e = did
    · rw [heq]
      exact find_filter_self mm2.blocks did
    · have ha : Anc m did e := hor.resolve_left heq
      exact find_none_filter mm2.blocks e did (hgone2 e hp ha)
  · intro id b hb hnS
    have hfind := hkept2 id b hb hnS
    have hne : id ≠ did := by
      intro heq
      refine hnS ?_
      rw [heq]
      exact ⟨hdidp, Or.inl rfl⟩
    show (mm2.blocks.filter (fun bk => bk.id ≠ did)).find? (fun bk => bk.id = id) = _
    exact find_filter_other mm2.blocks id did _ hne hfind
  · intro id hm0
    exact find_none_filter mm2.blocks id did (habs2 id hm0)
  · intro conn
    show conn ∈ mm2.connections.filter
      (fun c => c.from_block ≠ did ∧ c.to_block ≠ did) ↔ _
    rw [List.mem_filter, hconns2 conn]
    simp only [decide_eq_true_eq]
    constructor
    · intro hx
      obtain ⟨⟨h1, h2, h3⟩, h4, h5⟩ := hx
      refine ⟨h1, ?_, ?_⟩
      · intro hy
        obtain ⟨hp, hor⟩ := hy
        rcases hor with heq | ha
        · exact h4 heq
        · exact h2 ⟨hp, ha⟩
      · intro hy
        obtain ⟨hp, hor⟩ := hy
        rcases hor with heq | ha
        · exact h5 heq
        · exact h3 ⟨hp, ha⟩
    · intro hx
      obtain ⟨h1, h2, h3⟩ := hx
      refine ⟨⟨h1, ?_, ?_⟩, ?_, ?_⟩
      · intro hy
        exact h2 ⟨hy.1, Or.inr hy.2⟩
      · intro hy
        exact h3 ⟨hy.1, Or.inr hy.2⟩
      · intro heq
        refine h2 ⟨?_, Or.inl heq⟩
        rw [heq]
        exact hdidp
      · intro heq
        refine h3 ⟨?_, Or.inl heq⟩
        rw [heq]
        exact hdidp

theorem delLoop (rank : String → Nat) (fuel : Nat) (m : ModelManager) (did : String)
    (bd : Block) (hWF : StoreWF m rank) (hnE : presentBlock m "" = false)
    (hdid : findBlock m did = some bd) (hdidp : presentBlock m did = true)
    (hrec : ∀ (mm : ModelManager) (c : String) (cb : Block),
      StoreWF mm rank → presentBlock mm "" = false → findBlock mm c = some cb →
      (∀ e, presentBlock mm e = true → (e = c ∨ Anc mm c e) → rank e < rank c + fuel) →
      DeleteSpec mm c cb (delete_block fuel mm c)
        (fun e => presentBlock mm e = true ∧ (e = c ∨ Anc mm c e))) :
    ∀ (l : List String), l.Nodup →
      (∀ c, c ∈ l → presentBlock m c = true → parentOf m c = some did) →
      (∀ c, c ∈ l → presentBlock m c = true →
        ∀ e, presentBlock m e = true → (e = c ∨ Anc m c e) → rank e < rank c + fuel) →
      ∀ (Rem0 : String → Prop) (macc : ModelManager),
        DelLoopInv m did bd macc Rem0 →
        (∀ e, Rem0 e → presentBlock m e = true ∧ Anc m did e) →
        (∀ e, Rem0 e → ¬ descSetFrom m l e) →
        (∀ x y, Rem0 x → Anc m x y → presentBlock m y = true → Rem0 y) →
        DelLoopInv m did bd (l.foldl (delete_block fuel) macc)
          (fun e => Rem0 e ∨ descSetFrom m l e) := by
  intro l
  induction l with
  | nil =>
    intro hnd hl hfl Rem0 macc hinv hR0 hdisj hdc
    simp only [List.foldl_nil]
    refine delInv_congr m did bd macc Rem0 _ (fun e => ?_) hinv
    constructor
    · exact fun h0 => Or.inl h0
    · intro h0
      rcases h0 with h0 | ⟨c, hc, _⟩
      · exact h0
      · exact absurd hc (List.not_mem_nil c)
  | cons c l ih =>
    intro hnd hl hfl Rem0 macc hinv hR0 hdisj hdc
    have hndl : l.Nodup := (List.nodup_cons.mp hnd).2
    have hcnl : c ∉ l := (List.nodup_cons.mp hnd).1
    have hll : ∀ x, x ∈ l → presentBlock m x = true → parentOf m x = some did :=
      fun x hx => hl x (List.mem_cons_of_mem c hx)
    have hfll : ∀ x, x ∈ l → presentBlock m x = true →
        ∀ e, presentBlock m e = true → (e = x ∨ Anc m x e) → rank e < rank x + fuel :=
      fun x hx => hfl x (List.mem_cons_of_mem c hx)
    rw [List.foldl_cons]
    by_cases hc : presentBlock m c = true
    case neg =>
      have hcm : presentBlock macc c ≠ true := by
        intro hx
        exact hc ((delInv_present m did bd macc Rem0 hinv hdid c).mp hx).1
      have hcmn : findBlock macc c = none := by
        cases hfd : findBlock macc c with
        | none => rfl
        | some cb => exact absurd (present_of_find macc c cb hfd) hcm
      rw [delete_noop fuel macc c hcmn]
      have hdisj2 : ∀ e, Rem0 e → ¬ descSetFrom m l e := by
        intro e h0 hd
        obtain ⟨c2, hc2, hp2, ho2⟩ := hd
        exact hdisj e h0 ⟨c2, List.mem_cons_of_mem c hc2, hp2, ho2⟩
      have hih := ih hndl hll hfll Rem0 macc hinv hR0 hdisj2 hdc
      refine delInv_congr m did bd _ _ _ (fun e => ?_) hih
      constructor
      · intro hx
        rcases hx with h0 | ⟨c2, hc2, hp2, ho2⟩
        · exact Or.inl h0
        · exact Or.inr ⟨c2, List.mem_cons_of_mem c hc2, hp2, ho2⟩
      · intro hx
        rcases hx with h0 | ⟨c2, hc2, hp2, ho2⟩
        · exact Or.inl h0
        · rcases List.mem_cons.mp hc2 with heq | hc2l
          · rw [heq] at hp2
            exact absurd hp2 hc
          · exact Or.inr ⟨c2, hc2l, hp2, ho2⟩
    case pos =>
      have hnr0c : ¬ Rem0 c :=
        fun h0 => hdisj c h0 ⟨c, List.mem_cons_self c l, hc, Or.inl rfl⟩
      have hpoc : parentOf m c = some did := hl c (List.mem_cons_self c l) hc
      obtain ⟨cb, hcb, hcbp⟩ := parentOf_inv m c did hpoc
      have hrankc : rank c = rank did + 1 := hWF.rankStep c cb hcb did hcbp hdidp
      have hcneq : c ≠ did := by
        intro heq
        rw [heq] at hrankc
        omega
      have hcbm : findBlock macc c = some cb := hinv.kept c cb hcb hnr0c hcneq
      have hWFm : StoreWF macc rank := delInv_wf m rank did bd macc Rem0 hWF hinv hdid
      have hpres_false_of_rem : ∀ y, Rem0 y → presentBlock macc y = false := by
        intro y hy
        unfold presentBlock
        rw [hinv.removed y hy]
        rfl
      have hnEm : presentBlock macc "" = false := by
        cases hval : presentBlock macc "" with
        | false => rfl
        | true =>
          have hcon := ((delInv_present m did bd macc Rem0 hinv hdid "").mp hval).1
          rw [hnE] at hcon
          exact Bool.noConfusion hcon
      have hanc_to : ∀ a e, Anc macc a e → Anc m a e :=
        fun a e => anc_transport_sub m macc
          (fun x hx => delInv_parentOf m did bd macc Rem0 hinv hdid x hx) a e
      have hanc_back : ∀ a e, Anc m a e → presentBlock macc e = true → Anc macc a e := by
        intro a e ha he
        refine anc_transport_back m macc
          (fun x hx => delInv_parentOf m did bd macc Rem0 hinv hdid x hx) ?_ a e ha he
        intro x y hxm hxmacc hanc hym
        have hremx : Rem0 x := by
          by_contra hnr
          have hcon := (delInv_present m did bd macc Rem0 hinv hdid x).mpr ⟨hxm, hnr⟩
          rw [hxmacc] at hcon
          exact Bool.noConfusion hcon
        exact hpres_false_of_rem y (hdc x y hremx hanc hym)
      have hfuelm : ∀ e, presentBlock macc e = true → (e = c ∨ Anc macc c e) →
          rank e < rank c + fuel := by
        intro e he hor
        have hem := ((delInv_present m did bd macc Rem0 hinv hdid e).mp he).1
        refine hfl c (List.mem_cons_self c l) hc e hem ?_
        rcases hor with heq | ha
        · exact Or.inl heq
        · exact Or.inr (hanc_to c e ha)
      have hspec := hrec macc c cb hWFm hnEm hcbm hfuelm
      have hSiff : ∀ e, (presentBlock macc e = true ∧ (e = c ∨ Anc macc c e)) ↔
          (presentBlock m e = true ∧ ¬ Rem0 e ∧ (e = c ∨ Anc m c e)) := by
        intro e
        constructor
        · intro hx
          obtain ⟨he, hor⟩ := hx
          have hpm := (delInv_present m did bd macc Rem0 hinv hdid e).mp he
          refine ⟨hpm.1, hpm.2, ?_⟩
          rcases hor with heq | ha
          · exact Or.inl heq
          · exact Or.inr (hanc_to c e ha)
        · intro hx
          obtain ⟨hpm, hnr, hor⟩ := hx
          have he : presentBlock macc e = true :=
            (delInv_present m did bd macc Rem0 hinv hdid e).mpr ⟨hpm, hnr⟩
          refine ⟨he, ?_⟩
          rcases hor with heq | ha
          · exact Or.inl heq
          · exact Or.inr (hanc_back c e ha he)
      obtain ⟨ch, hch, hchsub, hchret⟩ := hinv.root
      have hdidnotS : ¬ (presentBlock macc did = true ∧ (did = c ∨ Anc macc c did)) := by
        intro hx
        obtain ⟨_, hor⟩ := hx
        rcases hor with heq | ha
        · exact hcneq heq.symm
        · have := anc_rank m rank hWF c did (hanc_to c did ha) hc
          omega
      have hkeptdid := hspec.kept did { bd with children := ch } hch hdidnotS
      have hcbdid : cb.parent_id = some did := hcbp
      rw [if_pos hcbdid] at hkeptdid
      have hkeptdid2 : findBlock (delete_block fuel macc c) did
          = some { bd with children := ch.erase c } := hkeptdid
      have hinv2 : DelLoopInv m did bd (delete_block fuel macc c)
          (fun e => Rem0 e
            ∨ (presentBlock m e = true ∧ ¬ Rem0 e ∧ (e = c ∨ Anc m c e))) := by
        refine ⟨?_, ?_, ?_, ?_, ?_, ?_, ?_, ?_⟩
        · intro id hr
          rcases hr with hr | hS
          · exact hspec.absent id (hinv.removed id hr)
          · exact hspec.gone id ((hSiff id).mpr hS)
        · intro id b hb hnr hdne
          have hnr0 : ¬ Rem0 id := fun hr => hnr (Or.inl hr)
          have hnS : ¬ (presentBlock macc id = true ∧ (id = c ∨ Anc macc c id)) := by
            intro hS
            exact hnr (Or.inr ((hSiff id).mp hS))
          have hkept0 : findBlock macc id = some b := hinv.kept id b hb hnr0 hdne
          have hkept1 := hspec.kept id b hkept0 hnS
          have hcond : ¬ (cb.parent_id = some id) := by
            rw [hcbdid]
            intro hcon
            exact hdne (Option.some.inj hcon).symm
          rw [if_neg hcond] at hkept1
          exact hkept1
        · refine ⟨ch.erase c, hkeptdid2, ?_, ?_⟩
          · exact List.Sublist.trans (List.erase_sublist c ch) hchsub
          · intro e he hnr
            have hnr0 : ¬ Rem0 e := fun hr => hnr (Or.inl hr)
            have hin : e ∈ ch := hchret e he hnr0
            have hnec : e ≠ c := by
              intro heq
              refine hnr (Or.inr ?_)
              rw [heq]
              exact ⟨hc, hnr0c, Or.inl rfl⟩
            exact (List.mem_erase_of_ne hnec).mpr hin
        · intro id hm0
          exact hspec.absent id (hinv.absent id hm0)
        · intro conn
          rw [hspec.conns conn, hinv.conns conn]
          constructor
          · intro hx
            obtain ⟨⟨h1, h2, h3⟩, h4, h5⟩ := hx
            refine ⟨h1, ?_, ?_⟩
            · intro hy
              rcases hy with hr | hS
              · exact h2 hr
              · exact h4 ((hSiff _).mpr hS)
            · intro hy
              rcases hy with hr | hS
              · exact h3 hr
              · exact h5 ((hSiff _).mpr hS)
          · intro hx
            obtain ⟨h1, h2, h3⟩ := hx
            refine ⟨⟨h1, fun hr => h2 (Or.inl hr), fun hr => h3 (Or.inl hr)⟩, ?_, ?_⟩
            · intro hS
              exact h2 (Or.inr ((hSiff _).mp hS))
            · intro hS
              exact h3 (Or.inr ((hSiff _).mp hS))
        · exact hspec.bcEq.trans hinv.bcEq
        · exact hspec.ccEq.trans hinv.ccEq
        · exact hspec.pcEq.trans hinv.pcEq
      have hR0' : ∀ e,
          (Rem0 e ∨ (presentBlock m e = true ∧ ¬ Rem0 e ∧ (e = c ∨ Anc m c e))) →
          presentBlock m e = true ∧ Anc m did e := by
        intro e hx
        rcases hx with hr | ⟨hp, hnr, hor⟩
        · exact hR0 e hr
        · refine ⟨hp, ?_⟩
          rcases hor with heq | ha
          · rw [heq]
            exact Anc.direct hpoc
          · exact anc_trans m did c e (Anc.direct hpoc) ha
      have hdisj' : ∀ e,
          (Rem0 e ∨ (presentBlock m e = true ∧ ¬ Rem0 e ∧ (e = c ∨ Anc m c e))) →
          ¬ descSetFrom m l e := by
        intro e hx hd
        obtain ⟨c2, hc2, hp2, ho2⟩ := hd
        have hpo2 : parentOf m c2 = some did := hll c2 hc2 hp2
        obtain ⟨cb2, hcb2, hcbp2⟩ := parentOf_inv m c2 did hpo2
        have hrank2 : rank c2 = rank did + 1 := hWF.rankStep c2 cb2 hcb2 did hcbp2 hdidp
        rcases hx with hr | ⟨hp, hnr, hor⟩
        · exact hdisj e hr ⟨c2, List.mem_cons_of_mem c hc2, hp2, ho2⟩
        · rcases hor with heq | ha
          · rcases ho2 with heq2 | ha2
            · refine hcnl ?_
              rw [heq.symm.trans heq2]
              exact hc2
            · have ha2' : Anc m c2 c := heq ▸ ha2
              have := anc_rank m rank hWF c2 c ha2' hp2
              omega
          · rcases ho2 with heq2 | ha2
            · have ha' : Anc m c c2 := heq2 ▸ ha
              have := anc_rank m rank hWF c c2 ha' hc
              omega
            · rcases anc_linear m c e ha c2 ha2 with heq3 | hcc2 | hc2c
              · rw [← heq3] at hc2
                exact hcnl hc2
              · have := anc_rank m rank hWF c c2 hcc2 hc
                omega
              · have := anc_rank m rank hWF c2 c hc2c hp2
                omega
      have hdc' : ∀ x y,
          (Rem0 x ∨ (presentBlock m x = true ∧ ¬ Rem0 x ∧ (x = c ∨ Anc m c x))) →
          Anc m x y → presentBlock m y = true →
          (Rem0 y ∨ (presentBlock m y = true ∧ ¬ Rem0 y ∧ (y = c ∨ Anc m c y))) := by
        intro x y hx hanc hy
        rcases hx with hr | ⟨hp, hnr, hor⟩
        · exact Or.inl (hdc x y hr hanc hy)
        · by_cases hry : Rem0 y
          · exact Or.inl hry
          · refine Or.inr ⟨hy, hry, Or.inr ?_⟩
            rcases hor with heq | ha
            · rw [heq] at hanc
              exact hanc
            · exact anc_trans m c x y ha hanc
      have hih := ih hndl hll hfll _ _ hinv2 hR0' hdisj' hdc'
      refine delInv_congr m did bd _ _ _ (fun e => ?_) hih
      constructor
      · intro hx
        rcases hx with (hr | ⟨hp, hnr, hor⟩) | ⟨c2, hc2, hp2, ho2⟩
        · exact Or.inl hr
        · exact Or.inr ⟨c, List.mem_cons_self c l, hc, hor⟩
        · exact Or.inr ⟨c2, List.mem_cons_of_mem c hc2, hp2, ho2⟩
      · intro hx
        rcases hx with hr | ⟨c2, hc2, hp2, ho2⟩
        · exact Or.inl (Or.inl hr)
        · rcases List.mem_cons.mp hc2 with heq | hc2l
          · by_cases hre : Rem0 e
            · exact Or.inl (Or.inl hre)
            · refine Or.inl (Or.inr ⟨?_, hre, ?_⟩)
              · rcases ho2 with heq2 | ha2
                · rw [heq2, heq]
                  exact hc
                · exact anc_lower_present m c2 e ha2
              · rcases ho2 with heq2 | ha2
                · exact Or.inl (heq2.trans heq)
                · rw [heq] at ha2
                  exact Or.inr ha2
          · exact Or.inr ⟨c2, hc2l, hp2, ho2⟩

theorem deleteRec_spec (rank : String → Nat) (fuel : Nat) :
    ∀ (m : ModelManager) (did : String) (bd : Block),
      StoreWF m rank → presentBlock m "" = false → findBlock m did = some bd →
      (∀ e, presentBlock m e = true → (e = did ∨ Anc m did e) → rank e < rank did + fuel) →
      DeleteSpec m did bd (delete_block fuel m did)
        (fun e => presentBlock m e = true ∧ (e = did ∨ Anc m did e)) := by
  induction fuel with
  | zero =>
    intro m did bd hWF hnE hdid hfuel
    have h0 := hfuel did (present_of_find m did bd hdid) (Or.inl rfl)
    omega
  | succ fuel ih =>
    intro m did bd hWF hnE hdid hfuel
    have hdidp : presentBlock m did = true := present_of_find m did bd hdid
    have hnd : bd.children.Nodup := hWF.childrenNodup did bd hdid
    have hl : ∀ c, c ∈ bd.children → presentBlock m c = true →
        parentOf m c = some did := by
      intro c hcm hcp
      obtain ⟨cb, hcb⟩ := present_some m c hcp
      rw [parentOf_of_find m c cb hcb]
      exact hWF.childParent did bd hdid c hcm cb hcb
    have hfl : ∀ c, c ∈ bd.children → presentBlock m c = true →
        ∀ e, presentBlock m e = true → (e = c ∨ Anc m c e) → rank e < rank c + fuel := by
      intro c hcm hcp e he hor
      obtain ⟨cb, hcb, hcbp⟩ := parentOf_inv m c did (hl c hcm hcp)
      have hrc : rank c = rank did + 1 := hWF.rankStep c cb hcb did hcbp hdidp
      have hanc : e = did ∨ Anc m did e := by
        refine Or.inr ?_
        rcases hor with heq | ha
        · rw [heq]
          exact Anc.direct (hl c hcm hcp)
        · exact anc_trans m did c e (Anc.direct (hl c hcm hcp)) ha
      have := hfuel e he hanc
      omega
    have hinv0 : DelLoopInv m did bd m (fun _ => False) := by
      refine ⟨?_, ?_, ?_, ?_, ?_, rfl, rfl, rfl⟩
      · exact fun id hr => hr.elim
      · exact fun id b hb _ _ => hb
      · exact ⟨bd.children, hdid, List.Sublist.refl _, fun e he _ => he⟩
      · exact fun id hb => hb
      · intro conn
        constructor
        · exact fun hm => ⟨hm, fun h => h, fun h => h⟩
        · exact fun hm => hm.1
    have hloop := delLoop rank fuel m did bd hWF hnE hdid hdidp ih bd.children hnd hl hfl
      (fun _ => False) m hinv0 (fun e h0 => h0.elim) (fun e h0 => h0.elim)
      (fun x y h0 _ _ => h0.elim)
    have hRemIff : ∀ e, (False ∨ descSetFrom m bd.children e) ↔
        (presentBlock m e = true ∧ Anc m did e) := by
      intro e
      constructor
      · intro hx
        rcases hx with h0 | ⟨c2, hc2, hp2, ho2⟩
        · exact h0.elim
        · rcases ho2 with heq | ha2
          · rw [heq]
            exact ⟨hp2, anc_of_child m rank hWF did bd hdid c2 hc2 hp2⟩
          · exact ⟨anc_lower_present m c2 e ha2,
              anc_trans m did c2 e (anc_of_child m rank hWF did bd hdid c2 hc2 hp2) ha2⟩
      · intro hx
        obtain ⟨c2, hc2, hp2, ho2⟩ := anc_decomp m rank hWF did bd hdid e hx.2
        exact Or.inr ⟨c2, hc2, hp2, ho2⟩
    obtain ⟨mm1, hmm1⟩ : ∃ x, x = bd.children.foldl (delete_block fuel) m := ⟨_, rfl⟩
    have hinv1 : DelLoopInv m did bd mm1
        (fun e => presentBlock m e = true ∧ Anc m did e) := by
      rw [hmm1]
      exact delInv_congr m did bd _ _ _ hRemIff hloop
    -- the parent of the deleted root is never itself removed
    have hparNotRem : ∀ pp, bd.parent_id = some pp →
        ¬ (presentBlock m pp = true ∧ Anc m did pp) := by
      intro pp hbp hx
      obtain ⟨hpp, ha⟩ := hx
      have hstep := hWF.rankStep did bd hdid pp hbp hpp
      have := anc_rank m rank hWF did pp ha hdidp
      omega
    cases hbp : bd.parent_id with
    | none =>
      have hres : delete_block (fuel+1) m did =
          { mm1 with
            blocks := mm1.blocks.filter (fun b => b.id ≠ did),
            connections := mm1.connections.filter
              (fun c => c.from_block ≠ did ∧ c.to_block ≠ did) } := by
        rw [hmm1]
        simp only [delete_block, hdid, hbp]
      rw [hres]
      refine delete_tail_spec m mm1 did bd hdidp ?_ ?_ ?_ hinv1.conns
        hinv1.bcEq hinv1.ccEq hinv1.pcEq
      · exact fun e hp ha => hinv1.removed e ⟨hp, ha⟩
      · intro id b hb hnS
        have hcond : ¬ (bd.parent_id = some id) := by
          rw [hbp]
          exact fun hcon => Option.noConfusion hcon
        rw [if_neg hcond]
        have hnr : ¬ (presentBlock m id = true ∧ Anc m did id) :=
          fun hy => hnS ⟨hy.1, Or.inr hy.2⟩
        have hne : id ≠ did := by
          intro heq
          refine hnS ?_
          rw [heq]
          exact ⟨hdidp, Or.inl rfl⟩
        exact hinv1.kept id b hb hnr hne
      · exact hinv1.absent
    | some pp =>
      have hppnr := hparNotRem pp hbp
      by_cases hppm : presentBlock m pp = true
      · -- the parent exists: `did` is erased from its children list
        have hppne : pp ≠ "" := by
          intro heq
          rw [heq] at hppm
          rw [hnE] at hppm
          exact Bool.noConfusion hppm
        have hppdid : pp ≠ did := by
          intro heq
          obtain ⟨p0, hp0⟩ := present_some m pp hppm
          have hstep := hWF.rankStep did bd hdid pp hbp hppm
          rw [heq] at hstep
          omega
        obtain ⟨p0, hp0⟩ := present_some m pp hppm
        have hppk : findBlock mm1 pp = some p0 :=
          hinv1.kept pp p0 hp0 hppnr hppdid
        have hppmm1 : presentBlock mm1 pp = true := present_of_find mm1 pp p0 hppk
        have hres : delete_block (fuel+1) m did =
            { mm1 with
              blocks := (updateBlock mm1.blocks pp
                (fun p => { p with children := p.children.erase did })).filter
                  (fun b => b.id ≠ did),
              connections := mm1.connections.filter
                (fun c => c.from_block ≠ did ∧ c.to_block ≠ did) } := by
          simp only [delete_block, hdid, hbp, ← hmm1]
          rw [if_pos ⟨hppne, hppmm1⟩]
        rw [hres]
        have hf : ∀ bb : Block,
            ((fun p : Block => { p with children := p.children.erase did }) bb).id = bb.id :=
          fun bb => rfl
        refine delete_tail_spec m
          { mm1 with
            blocks := updateBlock mm1.blocks pp
                        (fun p => { p with children := p.children.erase did }) }
          did bd hdidp ?_ ?_ ?_ hinv1.conns hinv1.bcEq hinv1.ccEq hinv1.pcEq
        · intro e hp ha
          have hne : e ≠ pp := by
            intro heq
            refine hppnr ?_
            rw [← heq]
            exact ⟨hp, ha⟩
          rw [findBlock_update_other mm1 pp e _ hf hne]
          exact hinv1.removed e ⟨hp, ha⟩
        · intro id b hb hnS
          have hnr : ¬ (presentBlock m id = true ∧ Anc m did id) :=
            fun hy => hnS ⟨hy.1, Or.inr hy.2⟩
          have hne : id ≠ did := by
            intro heq
            refine hnS ?_
            rw [heq]
            exact ⟨hdidp, Or.inl rfl⟩
          have hmm1id : findBlock mm1 id = some b := hinv1.kept id b hb hnr hne
          by_cases hip : id = pp
          · have hcond : bd.parent_id = some id := by
              rw [hbp, hip]
            rw [if_pos hcond]
            rw [hip]
            rw [findBlock_update_self mm1 pp _ hf]
            rw [show findBlock mm1 pp = some b from hip ▸ hmm1id]
            rfl
          · have hcond : ¬ (bd.parent_id = some id) := by
              rw [hbp]
              intro hcon
              exact hip (Option.some.inj hcon).symm
            rw [if_neg hcond]
            rw [findBlock_update_other mm1 pp id _ hf hip]
            exact hmm1id
        · intro id hm0
          have hne : id ≠ pp := by
            intro heq
            rw [heq] at hm0
            rw [hm0] at hp0
            cases hp0
          rw [findBlock_update_other mm1 pp id _ hf hne]
          exact hinv1.absent id hm0
      · -- the recorded parent is dangling (or already gone): no erase happens
        have hmm1pp : presentBlock mm1 pp = false := by
          cases hval : presentBlock mm1 pp with
          | false => rfl
          | true =>
            have hcon := ((delInv_present m did bd mm1 _ hinv1 hdid pp).mp hval).1
            exact absurd hcon hppm
        have hres : delete_block (fuel+1) m did =
            { mm1 with
              blocks := mm1.blocks.filter (fun b => b.id ≠ did),
              connections := mm1.connections.filter
                (fun c => c.from_block ≠ did ∧ c.to_block ≠ did) } := by
          simp only [delete_block, hdid, hbp, ← hmm1]
          rw [if_neg ?_]
          intro hg
          have hcon := hg.2
          rw [hmm1pp] at hcon
          exact Bool.noConfusion hcon
        rw [hres]
        refine delete_tail_spec m mm1 did bd hdidp ?_ ?_ ?_ hinv1.conns
          hinv1.bcEq hinv1.ccEq hinv1.pcEq
        · exact fun e hp ha => hinv1.removed e ⟨hp, ha⟩
        · intro id b hb hnS
          have hcond : ¬ (bd.parent_id = some id) := by
            rw [hbp]
            intro hcon
            have heq : pp = id := Option.some.inj hcon
            rw [heq] at hppm
            exact hppm (present_of_find m id b hb)
          rw [if_neg hcond]
          have hnr : ¬ (presentBlock m id = true ∧ Anc m did id) :=
            fun hy => hnS ⟨hy.1, Or.inr hy.2⟩
          have hne : id ≠ did := by
            intro heq
            refine hnS ?_
            rw [heq]
            exact ⟨hdidp, Or.inl rfl⟩
          exact hinv1.kept id b hb hnr hne
        · exact hinv1.absent

/-- Claim C1: on a well-formed store (parent/children links consistent in
both directions, as the spec's structural-integrity section declares),
delete_block on a present block B removes B and every present descendant
of B, erases B from its parent's children list, leaves every other block's
record unchanged, keeps absent ids absent, removes exactly the connections
whose from_block or to_block names B or a descendant of B, and leaves the
counters untouched — all before the call returns. -/
theorem C1_delete_cascade (m : ModelManager) (rank : String → Nat) (B : String)
    (bB : Block) (hWF : StoreWF m rank) (hnE : presentBlock m "" = false)
    (hB : findBlock m B = some bB)
    (hrb : ∀ id, presentBlock m id = true → rank id < m.blocks.length) :
    findBlock (run_delete_block m B) B = none
    ∧ (∀ d, Anc m B d → findBlock (run_delete_block m B) d = none)
    ∧ (∀ pB p, bB.parent_id = some pB → findBlock m pB = some p →
        findBlock (run_delete_block m B) pB
          = some { p with children := p.children.erase B })
    ∧ (∀ id b, findBlock m id = some b → id ≠ B → ¬ Anc m B id →
        bB.parent_id ≠ some id →
        findBlock (run_delete_block m B) id = some b)
    ∧ (∀ id, findBlock m id = none → findBlock (run_delete_block m B) id = none)
    ∧ (∀ conn : Connection, conn ∈ (run_delete_block m B).connections ↔
        (conn ∈ m.connections
          ∧ ¬ (conn.from_block = B ∨ Anc m B conn.from_block)
          ∧ ¬ (conn.to_block = B ∨ Anc m B conn.to_block)))
    ∧ (run_delete_block m B).block_counter = m.block_counter
    ∧ (run_delete_block m B).connection_counter = m.connection_counter
    ∧ (run_delete_block m B).port_counter = m.port_counter := by
  have hBp : presentBlock m B = true := present_of_find m B bB hB
  have hfuel : ∀ e, presentBlock m e = true → (e = B ∨ Anc m B e) →
      rank e < rank B + (m.blocks.length + 1) := by
    intro e he _
    have := hrb e he
    omega
  have hspec := deleteRec_spec rank (m.blocks.length + 1) m B bB hWF hnE hB hfuel
  have hrun : run_delete_block m B = delete_block (m.blocks.length + 1) m B := rfl
  refine ⟨?_, ?_, ?_, ?_, ?_, ?_, ?_, ?_, ?_⟩
  · rw [hrun]
    exact hspec.gone B ⟨hBp, Or.inl rfl⟩
  · intro d ha
    rw [hrun]
    exact hspec.gone d ⟨anc_lower_present m B d ha, Or.inr ha⟩
  · intro pB p hpar hp
    have hnS : ¬ (presentBlock m pB = true ∧ (pB = B ∨ Anc m B pB)) := by
      intro hx
      obtain ⟨hpp, hor⟩ := hx
      have hstep := hWF.rankStep B bB hB pB hpar hpp
      rcases hor with heq | ha
      · rw [heq] at hstep
        omega
      · have := anc_rank m rank hWF B pB ha hBp
        omega
    have hk := hspec.kept pB p hp hnS
    rw [if_pos hpar] at hk
    rw [hrun]
    exact hk
  · intro id b hb hne hnanc hnp
    have hnS : ¬ (presentBlock m id = true ∧ (id = B ∨ Anc m B id)) := by
      intro hx
      rcases hx.2 with heq | ha
      · exact hne heq
      · exact hnanc ha
    have hk := hspec.kept id b hb hnS
    rw [if_neg hnp] at hk
    rw [hrun]
    exact hk
  · intro id hm0
    rw [hrun]
    exact hspec.absent id hm0
  · intro conn
    rw [hrun, hspec.conns conn]
    have hiff : ∀ s : String,
        (¬ (presentBlock m s = true ∧ (s = B ∨ Anc m B s)))
          ↔ ¬ (s = B ∨ Anc m B s) := by
      intro s
      constructor
      · intro hn hor
        refine hn ⟨?_, hor⟩
        rcases hor with heq | ha
        · rw [heq]
          exact hBp
        · exact anc_lower_present m B s ha
      · exact fun hn hx => hn hx.2
    rw [hiff conn.from_block, hiff conn.to_block]
  · rw [hrun]
    exact hspec.bcEq
  · rw [hrun]
    exact hspec.ccEq
  · rw [hrun]
    exact hspec.pcEq

theorem findBlock_blocks_congr (m m2 : ModelManager) (hb : m2.blocks = m.blocks)
    (id : String) : findBlock m2 id = findBlock m id := by
  unfold findBlock
  rw [hb]

theorem presentBlock_blocks_congr (m m2 : ModelManager) (hb : m2.blocks = m.blocks)
    (id : String) : presentBlock m2 id = presentBlock m id := by
  unfold presentBlock
  rw [findBlock_blocks_congr m m2 hb]

theorem storeWF_blocks_congr (m m2 : ModelManager) (rank : String → Nat)
    (hb : m2.blocks = m.blocks) (h : StoreWF m rank) : StoreWF m2 rank := by
  have hf : ∀ id, findBlock m2 id = findBlock m id := findBlock_blocks_congr m m2 hb
  constructor
  · intro id b hbk
    rw [hf id] at hbk
    exact h.childrenNodup id b hbk
  · intro id b hbk cid hcid c hc
    rw [hf id] at hbk
    rw [hf cid] at hc
    exact h.childParent id b hbk cid hcid c hc
  · intro id b hbk pid hpid p hp
    rw [hf id] at hbk
    rw [hf pid] at hp
    exact h.parentChild id b hbk pid hpid p hp
  · intro id b hbk pid hpid hpp
    rw [hf id] at hbk
    rw [presentBlock_blocks_congr m m2 hb pid] at hpp
    exact h.rankStep id b hbk pid hpid hpp

theorem wf_del : StoreWF exStoreDel exRankNest :=
  storeWF_blocks_congr exStoreNest exStoreDel exRankNest rfl wf_nest

theorem rank_del_bound :
    ∀ id, presentBlock exStoreDel id = true → exRankNest id < exStoreDel.blocks.length := by
  intro id h
  rw [presentBlock_blocks_congr exStoreNest exStoreDel rfl id] at h
  exact rank_nest_bound id h

/-- Witness for Claim C1: deleting the middle block of the P → C → G
store removes C and its child G, erases C from P's children list, drops
the connection into G, and keeps the root's self-loop connection. -/
theorem C1_delete_cascade_witness :
    findBlock (run_delete_block exStoreDel "block_1") "block_1" = none
    ∧ findBlock (run_delete_block exStoreDel "block_1") "block_2" = none
    ∧ findBlock (run_delete_block exStoreDel "block_1") "block_0"
        = some { exBlockP with children := exBlockP.children.erase "block_1" }
    ∧ exConnDel1 ∉ (run_delete_block exStoreDel "block_1").connections
    ∧ exConnDel2 ∈ (run_delete_block exStoreDel "block_1").connections := by
  have h := C1_delete_cascade exStoreDel exRankNest "block_1" exBlockC wf_del
    (by decide) (by decide) rank_del_bound
  have hnoanc : ∀ s : String, exRankNest s ≤ 1 → ¬ Anc exStoreDel "block_1" s := by
    intro s hs ha
    have h1 := anc_rank exStoreDel exRankNest wf_del "block_1" s ha (by decide)
    have h2 : exRankNest "block_1" = 1 := by decide
    omega
  refine ⟨h.1, ?_, ?_, ?_, ?_⟩
  · exact h.2.1 "block_2" (Anc.direct (by decide))
  · exact h.2.2.1 "block_0" exBlockP (by decide) (by decide)
  · intro hmem
    have hx := (h.2.2.2.2.2.1 exConnDel1).mp hmem
    refine hx.2.2 ?_
    refine Or.inr (Anc.direct ?_)
    decide
  · refine (h.2.2.2.2.2.1 exConnDel2).mpr ⟨by decide, ?_, ?_⟩
    · intro hor
      rcases hor with heq | ha
      · exact absurd heq (by decide)
      · exact hnoanc "block_0" (by decide) ha
    · intro hor
      rcases hor with heq | ha
      · exact absurd heq (by decide)
      · exact hnoanc "block_0" (by decide) ha

end MBSE
